import Mathlib

set_option maxRecDepth 16384

/-!
Verification of the cartographus source-reorganization scripts.

The scripts operate on whole file contents as Python strings.  We embed a
buffer as a `List Char`.  Python regular-expression searches used by the
scripts are deterministic for the concrete patterns involved (each greedy
run is followed by a required literal drawn from a disjoint character
class, so backtracking never changes the result); they are embedded as
direct recursive scanners below.
-/

namespace Py

/-- Python whitespace characters as matched by the regex class backslash-s
and stripped by str.rstrip / str.strip (ASCII range). -/
def pyIsSpace (c : Char) : Bool :=
  c = ' ' || c = '\t' || c = '\n' || c = '\r' || c = '\x0b' || c = '\x0c'

/-- Python word characters as matched by the regex class backslash-w
(ASCII range, as in the inputs these scripts process). -/
def pyIsWord (c : Char) : Bool :=
  ('a' ≤ c && c ≤ 'z') || ('A' ≤ c && c ≤ 'Z') || ('0' ≤ c && c ≤ '9') || c = '_'

/-- Python str.rstrip(): drop trailing whitespace. -/
def rstrip (l : List Char) : List Char :=
  (l.reverse.dropWhile pyIsSpace).reverse

/-- Python str.strip(): drop leading and trailing whitespace. -/
def pyStrip (l : List Char) : List Char :=
  (rstrip l).dropWhile pyIsSpace

/-- Match a literal string at the head of the input; return the remainder. -/
def expectStr : List Char → List Char → Option (List Char)
  | [], l => some l
  | _ :: _, [] => none
  | p :: ps, c :: cs => if p = c then expectStr ps cs else none

/-- Match one literal character at the head of the input. -/
def expectChar (a : Char) : List Char → Option (List Char)
  | [] => none
  | c :: cs => if c = a then some cs else none

/-- Greedy nonempty run of characters satisfying `p` (regex `X+` where the
following pattern element cannot match an `X` character). -/
def span1 (p : Char → Bool) (l : List Char) : Option (List Char × List Char) :=
  match l.takeWhile p with
  | [] => none
  | c :: cs => some (c :: cs, l.dropWhile p)

/-- Greedy optional single character (regex `X?` at the end of a group). -/
def optChar (a : Char) : List Char → List Char
  | [] => []
  | c :: cs => if c = a then cs else c :: cs

/-- Left-to-right unanchored regex search: first position where the matcher
succeeds. Returns (start position, matched text, remainder). -/
def searchAux (m : List Char → Option (List Char × List Char)) :
    List Char → Nat → Option (Nat × List Char × List Char)
  | [], pos => (m []).map (fun tr => (pos, tr.1, tr.2))
  | c :: rest, pos =>
    match m (c :: rest) with
    | some (t, r) => some (pos, t, r)
    | none => searchAux m rest (pos + 1)

/-- Left-to-right MULTILINE-anchored regex search: first line-start position
where the matcher succeeds (`atStart` records whether the current position
begins a line). -/
def searchLineAux (m : List Char → Option (List Char × List Char)) :
    List Char → Nat → Bool → Option (Nat × List Char × List Char)
  | [], pos, atStart =>
    if atStart then (m []).map (fun tr => (pos, tr.1, tr.2)) else none
  | c :: rest, pos, atStart =>
    if atStart then
      match m (c :: rest) with
      | some (t, r) => some (pos, t, r)
      | none => searchLineAux m rest (pos + 1) (c = '\n')
    else searchLineAux m rest (pos + 1) (c = '\n')

/-- Matcher for the pattern `import\s+\([^)]+\)` (re.DOTALL) at a fixed
position: literal `import`, whitespace run, parenthesized block up to the
first closing parenthesis. -/
def matchImportAt (l : List Char) : Option (List Char × List Char) :=
  (expectStr (("import").toList) l).bind fun r0 =>
  (span1 pyIsSpace r0).bind fun p1 =>
  (expectChar '(' p1.2).bind fun r2 =>
  (span1 (fun c => c ≠ ')') r2).bind fun p3 =>
  (expectChar ')' p3.2).bind fun r4 =>
  some (("import").toList ++ p1.1 ++ '(' :: p3.1 ++ [')'], r4)

/-- Matcher for the pattern `package\s+\w+` at a fixed position (used with a
`^` MULTILINE anchor by the callers). -/
def matchPackageAt (l : List Char) : Option (List Char × List Char) :=
  (expectStr (("package").toList) l).bind fun r0 =>
  (span1 pyIsSpace r0).bind fun p1 =>
  (span1 pyIsWord p1.2).bind fun p2 =>
  some (("package").toList ++ p1.1 ++ p2.1, p2.2)

/-- Matcher for the pattern `func Test\w+` at a fixed position (used with a
`^` MULTILINE anchor by the callers). -/
def matchFuncTestAt (l : List Char) : Option (List Char × List Char) :=
  (expectStr (("func Test").toList) l).bind fun r0 =>
  (span1 pyIsWord r0).bind fun p1 =>
  some (("func Test").toList ++ p1.1, p1.2)

/-- re.search for `import\s+\([^)]+\)` over a buffer. -/
def searchImport (l : List Char) : Option (Nat × List Char × List Char) :=
  searchAux matchImportAt l 0

/-- re.search for `^package\s+\w+` (re.MULTILINE) over a buffer. -/
def searchPackage (l : List Char) : Option (Nat × List Char × List Char) :=
  searchLineAux matchPackageAt l 0 true

/-- re.search for `^func Test\w+` (re.MULTILINE) over a buffer. -/
def searchFuncTest (l : List Char) : Option (Nat × List Char × List Char) :=
  searchLineAux matchFuncTestAt l 0 true

/-- Python substring containment (`keyword in name`). -/
def isSubstring (pat : List Char) : List Char → Bool
  | [] => pat.isEmpty
  | c :: rest => pat.isPrefixOf (c :: rest) || isSubstring pat rest

/-- The classifier loop shared by the split scripts (`categorize_test`):
iterate the ordered rule table; return the label of the first rule one of
whose keywords occurs as a substring of the name; fall back to `misc`. -/
def categorize (table : List (List Char × List (List Char))) (name : List Char) :
    List Char :=
  match table with
  | [] => ("misc").toList
  | (cat, kws) :: rest =>
    if kws.any (fun k => isSubstring k name) then cat else categorize rest name

end Py

open Py

namespace FixManagerSplitFiles

/-- fix_file from fix_manager_split_files.py: locate the end of the import
block and the first test function; rebuild the buffer as imports, a blank
line, then the tests.  `none` models the `return False` failure paths
(missing import block or missing test function), in which case the file is
not rewritten. -/
def fix_file (content : List Char) : Option (List Char) :=
  match searchImport content with
  | none => none
  | some (ip, im, _) =>
    match searchFuncTest content with
    | none => none
    | some (ts, _, _) =>
      some (content.take (ip + im.length) ++ ("\n\n").toList ++ content.drop ts)

/-- One per-file step of main: process the file, report success or failure,
and leave the buffer unchanged on failure. -/
def processOne (content : List Char) : Bool × List Char :=
  match fix_file content with
  | some c2 => (true, c2)
  | none => (false, content)

/-- main from fix_manager_split_files.py over the globbed batch: every file
is processed in order and its outcome reported; the script then falls off
the end of main, so the process exit status is 0 regardless of outcomes. -/
def mainResult (files : List (List Char)) : List (Bool × List Char) × Nat :=
  (files.map processOne, 0)

/-- A file with no parenthesized import block: fix_file fails on it. -/
def badFile : List Char := ("package sync\n\nfunc TestA(t *T) \x7b\n\x7d\n").toList

end FixManagerSplitFiles

/-- C9 counterexample: a one-file batch whose file lacks an import block
fails, yet the invocation exit status is 0 (successful).  The claimed
equivalence (exit status non-successful iff some file failed) is false. -/
theorem batch_exit_zero_despite_failure :
    (FixManagerSplitFiles.mainResult [FixManagerSplitFiles.badFile]).2 = 0 ∧
      (FixManagerSplitFiles.mainResult [FixManagerSplitFiles.badFile]).1.any
        (fun r => r.1 = false) = true := by
  constructor
  · rfl
  · decide

/-- C9 amended: a per-file failure never aborts the batch — the batch result
decomposes file by file, each outcome reported individually and computed
independently of the other files — but the exit status is 0 regardless of
how many files failed. -/
theorem batch_isolates_failures_but_exit_always_zero
    (pre : List (List Char)) (c : List Char) (post : List (List Char)) :
    (FixManagerSplitFiles.mainResult (pre ++ c :: post)).1 =
      (FixManagerSplitFiles.mainResult pre).1 ++
        FixManagerSplitFiles.processOne c :: (FixManagerSplitFiles.mainResult post).1 ∧
    (FixManagerSplitFiles.mainResult (pre ++ c :: post)).2 = 0 := by
  constructor
  · simp [FixManagerSplitFiles.mainResult]
  · rfl

/-- C2: the classifier returns the label of the first rule, in table order,
that has a keyword occurring as a substring of the name, and the fixed
fallback label `misc` when no rule matches; in particular it is total, so
every name is assigned some category. -/
theorem categorize_first_rule_wins
    (table : List (List Char × List (List Char))) (name : List Char) :
    Py.categorize table name =
      match table.find? (fun r => r.2.any (fun k => Py.isSubstring k name)) with
      | some r => r.1
      | none => ("misc").toList := by
  induction table with
  | nil => rfl
  | cons hd tl ih =>
    by_cases h : hd.2.any (fun k => Py.isSubstring k name) = true
    · simp [Py.categorize, List.find?_cons, h]
    · simp only [Bool.not_eq_true] at h
      simp [Py.categorize, List.find?_cons, h, ih]


namespace FixRemainingIssues

/-- Models the parenthesis-balance validation performed by Python's regex
compiler on a pattern string: a backslash escapes the next character, a
character class treats parentheses literally, an opening parenthesis pushes
a group and a closing one pops; a close with no open group, a dangling open
group, a trailing backslash or an unterminated class makes compilation
raise re.error.  Arguments: remaining pattern, open-group depth, inside a
character class. -/
def pyRegexParenScan : List Char → Nat → Bool → Bool
  | [], depth, inClass => depth == 0 && !inClass
  | c :: rest, depth, inClass =>
    if c = '\\' then
      match rest with
      | [] => false
      | _ :: r => pyRegexParenScan r depth inClass
    else if inClass then
      if c = ']' then pyRegexParenScan rest depth false
      else pyRegexParenScan rest depth inClass
    else if c = '[' then pyRegexParenScan rest depth true
    else if c = '(' then pyRegexParenScan rest (depth + 1) false
    else if c = ')' then
      match depth with
      | 0 => false
      | d + 1 => pyRegexParenScan rest d false
    else pyRegexParenScan rest depth inClass

/-- A pattern string compiles without a parenthesis error. -/
def pyRegexBalanced (pat : List Char) : Bool :=
  pyRegexParenScan pat 0 false

/-- Fixed part of the line-43 pattern before the interpolated helper name:
`(// [^\n]*\n)?func `. -/
def helperPatPre : List Char := ("(// [^\\n]*\\n)?func ").toList

/-- Fixed part of the line-43 pattern after the interpolated helper name:
`\([^{]+\{[^}]+\})` — note the stray closing parenthesis at the end (the
removal pattern at line 65 lacks it). -/
def helperPatTail : List Char := ("\\([^\x7b]+\\\x7b[^\x7d]+\\\x7d)").toList

/-- The search pattern built at fix_remaining_issues.py line 43. -/
def helperSearchPattern (helper_name : List Char) : List Char :=
  helperPatPre ++ helper_name ++ helperPatTail

/-- find_and_move_helper_to_shared from fix_remaining_issues.py, over the
buffers of the globbed source files and the shared destination buffer.  Its
first action on a nonempty file list is re.search with
`helperSearchPattern`; compiling that pattern raises re.error (unbalanced
parenthesis), so the call terminates by exception before reading further,
appending to the destination, or rewriting any source.  The balanced branch
is unreachable for identifier helper names (see
`helper_search_pattern_unbalanced`); its value is a placeholder outside the
modeled domain. -/
def find_and_move_helper_to_shared (helper_name : List Char)
    (files : List (List Char)) (shared : List Char) :
    Except (List Char) (List Char × List (List Char)) :=
  match files with
  | [] => Except.ok (shared, [])
  | _ :: _ =>
    if pyRegexBalanced (helperSearchPattern helper_name) then
      Except.ok (shared, files)
    else
      Except.error (("re.error: unbalanced parenthesis").toList)

/-- One invocation of the relocator on the file-system state (source
buffers, shared destination buffer): an exception leaves every file
unchanged. -/
def runMove (helper_name : List Char) (st : List (List Char) × List Char) :
    List (List Char) × List Char :=
  match find_and_move_helper_to_shared helper_name st.1 st.2 with
  | Except.ok (shared2, files2) => (files2, shared2)
  | Except.error _ => st

/-- A source file containing the stringPtr helper with a preceding comment,
as the relocation in main() (issue 2) expects to find. -/
def helperFile : List Char :=
  ("package sync\n\n// stringPtr returns a pointer to s\nfunc stringPtr(s string) *string \x7b\n\treturn &s\n\x7d\n").toList

/-- Scanning an escape sequence changes no scanner state. -/
theorem pyRegexParenScan_escape (c : Char) (rest : List Char) (depth : Nat)
    (inClass : Bool) :
    pyRegexParenScan ('\\' :: c :: rest) depth inClass =
      pyRegexParenScan rest depth inClass := by
  rw [pyRegexParenScan.eq_def]
  simp

/-- Scanning an opening group parenthesis outside a class pushes a group. -/
theorem pyRegexParenScan_open (rest : List Char) (depth : Nat) :
    pyRegexParenScan ('(' :: rest) depth false =
      pyRegexParenScan rest (depth + 1) false := by
  rw [pyRegexParenScan.eq_def]
  simp

/-- Scanning a class opener outside a class enters the class. -/
theorem pyRegexParenScan_classOpen (rest : List Char) (depth : Nat) :
    pyRegexParenScan ('[' :: rest) depth false =
      pyRegexParenScan rest depth true := by
  rw [pyRegexParenScan.eq_def]
  simp

/-- Scanning a close group parenthesis outside a class pops a group. -/
theorem pyRegexParenScan_close (rest : List Char) (depth : Nat) :
    pyRegexParenScan (')' :: rest) (depth + 1) false =
      pyRegexParenScan rest depth false := by
  rw [pyRegexParenScan.eq_def]
  simp

/-- Scanning an unescaped non-special character outside a class changes no
scanner state. -/
theorem pyRegexParenScan_other (c : Char) (rest : List Char) (depth : Nat)
    (h1 : ¬ c = '\\') (h2 : ¬ c = '[') (h4 : ¬ c = '(') (h5 : ¬ c = ')') :
    pyRegexParenScan (c :: rest) depth false = pyRegexParenScan rest depth false := by
  rw [pyRegexParenScan.eq_def]
  simp [h1, h2, h4, h5]

/-- Inside a class, a class closer leaves the class. -/
theorem pyRegexParenScan_classClose (rest : List Char) (depth : Nat) :
    pyRegexParenScan (']' :: rest) depth true =
      pyRegexParenScan rest depth false := by
  rw [pyRegexParenScan.eq_def]
  simp

/-- Inside a class, any unescaped character other than the class closer is
literal. -/
theorem pyRegexParenScan_inClass (c : Char) (rest : List Char) (depth : Nat)
    (h1 : ¬ c = '\\') (h3 : ¬ c = ']') :
    pyRegexParenScan (c :: rest) depth true = pyRegexParenScan rest depth true := by
  rw [pyRegexParenScan.eq_def]
  simp [h1, h3]

/-- Scanning one word character changes no scanner state. -/
theorem pyRegexParenScan_word (c : Char) (rest : List Char) (depth : Nat)
    (hc : pyIsWord c = true) :
    pyRegexParenScan (c :: rest) depth false = pyRegexParenScan rest depth false := by
  have h1 : ¬ c = '\\' := fun hh => by rw [hh] at hc; revert hc; decide
  have h2 : ¬ c = '[' := fun hh => by rw [hh] at hc; revert hc; decide
  have h4 : ¬ c = '(' := fun hh => by rw [hh] at hc; revert hc; decide
  have h5 : ¬ c = ')' := fun hh => by rw [hh] at hc; revert hc; decide
  exact pyRegexParenScan_other c rest depth h1 h2 h4 h5

/-- For any identifier helper name (word characters only), the search
pattern of line 43 is rejected by the regex compiler: its trailing closing
parenthesis has no matching open group. -/
theorem helper_search_pattern_unbalanced (name : List Char)
    (h : ∀ c ∈ name, pyIsWord c = true) :
    pyRegexBalanced (helperSearchPattern name) = false := by
  have hpre : ∀ X : List Char,
      pyRegexParenScan (helperPatPre ++ X) 0 false = pyRegexParenScan X 0 false := by
    intro X
    have hchars : helperPatPre =
        '(' :: '/' :: '/' :: ' ' :: '[' :: '^' :: '\\' :: 'n' :: ']' :: '*' ::
        '\\' :: 'n' :: ')' :: '?' :: 'f' :: 'u' :: 'n' :: 'c' :: ' ' :: [] := rfl
    rw [hchars]
    simp only [List.cons_append, List.nil_append]
    rw [pyRegexParenScan_open, pyRegexParenScan_other '/' _ _ (by decide) (by decide) (by decide) (by decide),
      pyRegexParenScan_other '/' _ _ (by decide) (by decide) (by decide) (by decide),
      pyRegexParenScan_other ' ' _ _ (by decide) (by decide) (by decide) (by decide),
      pyRegexParenScan_classOpen,
      pyRegexParenScan_inClass '^' _ _ (by decide) (by decide),
      pyRegexParenScan_escape,
      pyRegexParenScan_classClose,
      pyRegexParenScan_other '*' _ _ (by decide) (by decide) (by decide) (by decide),
      pyRegexParenScan_escape,
      pyRegexParenScan_close,
      pyRegexParenScan_other '?' _ _ (by decide) (by decide) (by decide) (by decide),
      pyRegexParenScan_other 'f' _ _ (by decide) (by decide) (by decide) (by decide),
      pyRegexParenScan_other 'u' _ _ (by decide) (by decide) (by decide) (by decide),
      pyRegexParenScan_other 'n' _ _ (by decide) (by decide) (by decide) (by decide),
      pyRegexParenScan_other 'c' _ _ (by decide) (by decide) (by decide) (by decide),
      pyRegexParenScan_other ' ' _ _ (by decide) (by decide) (by decide) (by decide)]
  have hmid : ∀ m : List Char, (∀ c ∈ m, pyIsWord c = true) →
      pyRegexParenScan (m ++ helperPatTail) 0 false =
        pyRegexParenScan helperPatTail 0 false := by
    intro m hm
    induction m with
    | nil => simp
    | cons c cs ih =>
      rw [List.cons_append,
        pyRegexParenScan_word c (cs ++ helperPatTail) 0 (hm c (List.mem_cons_self c cs))]
      exact ih fun x hx => hm x (List.mem_cons_of_mem c hx)
  have htail : pyRegexParenScan helperPatTail 0 false = false := by decide
  unfold pyRegexBalanced helperSearchPattern
  rw [List.append_assoc] at *
  rw [hpre (name ++ helperPatTail), hmid name h, htail]

end FixRemainingIssues

/-- C4: evaluating find_and_move_helper_to_shared at its actual call site
(helper stringPtr, a source file that contains the helper, an empty shared
buffer): the call raises re.error from the malformed search pattern instead
of appending the helper to the destination and removing it from the
source. -/
theorem relocator_raises_at_call_site :
    FixRemainingIssues.find_and_move_helper_to_shared (("stringPtr").toList)
        [FixRemainingIssues.helperFile] [] =
      Except.error (("re.error: unbalanced parenthesis").toList) ∧
    FixRemainingIssues.pyRegexBalanced
        (FixRemainingIssues.helperSearchPattern (("stringPtr").toList)) = false := by
  exact ⟨rfl, rfl⟩

/-- C5: neither the first nor the second invocation of the relocator ever
runs to completion — both raise re.error, so the first invocation already
moves nothing (the state is unchanged), and the scenario the idempotence
claim describes (a successful first move followed by a detected no-op)
is unreachable. -/
theorem relocator_never_relocates :
    FixRemainingIssues.runMove (("stringPtr").toList)
        ([FixRemainingIssues.helperFile], []) =
      ([FixRemainingIssues.helperFile], []) ∧
    FixRemainingIssues.find_and_move_helper_to_shared (("stringPtr").toList)
        [FixRemainingIssues.helperFile] [] =
      Except.error (("re.error: unbalanced parenthesis").toList) := by
  exact ⟨rfl, rfl⟩

namespace Split

/-- Matcher for one attempt of the test-signature pattern
`(func\s+(Test\w+)\s*\([^)]+\)\s*\{)` at a fixed position.  Returns the
captured group 2 (the test name) and the remainder after the match.  Each
greedy run is followed by a required literal outside its character class,
so the backtracking search is equivalent to this deterministic scan. -/
def matchTestHeaderAt (l : List Char) : Option (List Char × List Char) :=
  (expectStr (("func").toList) l).bind fun r0 =>
  (span1 pyIsSpace r0).bind fun p1 =>
  (expectStr (("Test").toList) p1.2).bind fun r2 =>
  (span1 pyIsWord r2).bind fun p3 =>
  (expectChar '(' (p3.2.dropWhile pyIsSpace)).bind fun r5 =>
  (span1 (fun c => c ≠ ')') r5).bind fun p6 =>
  (expectChar ')' p6.2).bind fun r7 =>
  (expectChar '\x7b' (r7.dropWhile pyIsSpace)).bind fun r9 =>
  some (("Test").toList ++ p3.1, r9)

/-- re.finditer for the test-signature pattern: the ordered list of
(captured name, start offset) for every non-overlapping match, scanning
left to right and resuming after each match end.  Fuel decreases at every
step; `scanTests` supplies enough for the whole buffer. -/
def scanTestsGo : Nat → List Char → Nat → List (List Char × Nat)
  | 0, _, _ => []
  | fuel + 1, l, pos =>
    match matchTestHeaderAt l with
    | some (n, r) => (n, pos) :: scanTestsGo fuel r (pos + (l.length - r.length))
    | none =>
      match l with
      | [] => []
      | _ :: rest => scanTestsGo fuel rest (pos + 1)

/-- All test-signature matches of a buffer, with their start offsets. -/
def scanTests (l : List Char) : List (List Char × Nat) :=
  scanTestsGo (l.length + 1) l 0

/-- extract_test_helpers (identical in the split scripts): everything
before the first line matching `^func Test\w+`, right-stripped, plus a
blank line; empty when no test function exists. -/
def extract_test_helpers (content : List Char) : List Char :=
  match searchFuncTest content with
  | some (ts, _, _) => rstrip (content.take ts) ++ ("\n\n").toList
  | none => []

/-- The per-test slicing loop of split_tests: each test's span runs from
its start offset to the next test's start offset (or the end of the
buffer), right-stripped with a newline appended. -/
def sliceTests (content : List Char) : List (List Char × Nat) → List (List Char × List Char)
  | [] => []
  | (n, s) :: rest =>
    let e := match rest with
      | [] => content.length
      | (_, s2) :: _ => s2
    (n, rstrip ((content.drop s).take (e - s)) ++ ['\n']) :: sliceTests content rest

/-- Python dict insertion as used by split_tests: append `v` to the list at
key `k`, creating the key at the end in insertion order if absent. -/
def dictAppend (d : List (List Char × List (List Char))) (k : List Char)
    (v : List Char) : List (List Char × List (List Char)) :=
  match d with
  | [] => [(k, [v])]
  | (k2, vs) :: rest =>
    if k2 = k then (k2, vs ++ [v]) :: rest else (k2, vs) :: dictAppend rest k v

/-- Lookup in the categorized-tests dict; absent keys give the empty
list. -/
def lookupCat (d : List (List Char × List (List Char))) (k : List Char) :
    List (List Char) :=
  match d with
  | [] => []
  | (k2, vs) :: rest => if k2 = k then vs else lookupCat rest k

/-- The grouping loop of split_tests: classify each test name and append
its slice to that category in encounter order. -/
def buildCats (cat : List Char → List Char)
    (pairs : List (List Char × List Char)) : List (List Char × List (List Char)) :=
  pairs.foldl (fun d nv => dictAppend d (cat nv.1) nv.2) []

/-- The sections dictionary returned by split_tests. -/
structure Sections where
  package : List Char
  imports : List Char
  helpers : List Char
  tests : List (List Char × List (List Char))
deriving DecidableEq

/-- generate_file_content (identical in the split scripts): package line,
blank line, import block, blank line, helpers (when nonblank) and the
category's tests joined by single newlines. -/
def generate_file_content (package imports helpers : List Char)
    (tests : List (List Char)) : List Char :=
  let c1 := package ++ ("\n\n").toList ++ imports ++ ("\n\n").toList
  let c2 := if (pyStrip helpers).isEmpty then c1 else c1 ++ helpers ++ ("\n\n").toList
  c2 ++ List.intercalate ['\n'] tests

end Split

namespace SplitCrud

/-- The categorization table of split_crud_tests.py (configuration data). -/
def CATEGORIES : List (List Char × List (List Char)) :=
  [(("insert").toList, [("InsertPlaybackEvent").toList]),
   (("upsert").toList, [("UpsertGeolocation").toList]),
   (("query").toList,
     [("SessionKeyExists").toList, ("GetGeolocation").toList,
      ("GetLastPlaybackTime").toList]),
   (("pagination").toList, [("GetPlaybackEvents").toList]),
   (("stats").toList, [("GetStats").toList, ("GetUnique").toList])]

/-- categorize_test from split_crud_tests.py. -/
def categorize_test (name : List Char) : List Char :=
  Py.categorize CATEGORIES name

/-- split_tests from split_crud_tests.py: extract helpers, package line
and import block (package falls back to `package database`, the helper
offset to 0), then slice and categorize every test function. -/
def split_tests (content : List Char) : Split.Sections :=
  let helpers := Split.extract_test_helpers content
  let packageM := searchPackage helpers
  let importsM := searchImport helpers
  let package_line := match packageM with
    | some (_, t, _) => t
    | none => ("package database").toList
  let imports_section := match importsM with
    | some (_, t, _) => t
    | none => []
  let helper_start := match importsM with
    | some (p, t, _) => p + t.length
    | none =>
      match packageM with
      | some (p, t, _) => p + t.length
      | none => 0
  { package := package_line
    imports := imports_section
    helpers := pyStrip (helpers.drop helper_start)
    tests := Split.buildCats categorize_test
      (Split.sliceTests content (Split.scanTests content)) }

end SplitCrud

namespace SplitManager

/-- The categorization table of split_manager_tests.py (configuration
data). -/
def CATEGORIES : List (List Char × List (List Char)) :=
  [(("lifecycle").toList,
     [("NewManager").toList, ("SetOnSyncCompleted").toList,
      ("LastSyncTime").toList, ("StartStop").toList]),
   (("process_history").toList, [("ProcessHistoryRecord").toList]),
   (("sync").toList,
     [("TriggerSync").toList, ("SyncData").toList, ("SyncDataSince").toList,
      ("SyncLoop").toList, ("PerformInitialSync").toList]),
   (("geolocation").toList, [("FetchAndCacheGeolocation").toList]),
   (("concurrency").toList,
     [("Concurrent").toList, ("RaceConditions").toList,
      ("StopDuringSync").toList]),
   (("retry").toList, [("RetryWithBackoff").toList])]

/-- categorize_test from split_manager_tests.py. -/
def categorize_test (name : List Char) : List Char :=
  Py.categorize CATEGORIES name

/-- split_tests from split_manager_tests.py.  Unlike the crud variant, line
53 computes `package_match.end()` without a guard when the import search
failed, so when both searches fail the call raises AttributeError, modeled
as `none`. -/
def split_tests (content : List Char) : Option Split.Sections :=
  let helpers := Split.extract_test_helpers content
  let packageM := searchPackage helpers
  let importsM := searchImport helpers
  let package_line := match packageM with
    | some (_, t, _) => t
    | none => ("package sync").toList
  let imports_section := match importsM with
    | some (_, t, _) => t
    | none => []
  let build : Nat → Split.Sections := fun helper_start =>
    { package := package_line
      imports := imports_section
      helpers := pyStrip (helpers.drop helper_start)
      tests := Split.buildCats categorize_test
        (Split.sliceTests content (Split.scanTests content)) }
  match importsM with
  | some (p, t, _) => some (build (p + t.length))
  | none =>
    match packageM with
    | some (p, t, _) => some (build (p + t.length))
    | none => none

end SplitManager

namespace Py

theorem expectStr_eq_some {pre l r : List Char} :
    expectStr pre l = some r ↔ l = pre ++ r := by
  induction pre generalizing l with
  | nil => simp [expectStr]
  | cons p ps ih =>
    cases l with
    | nil => simp [expectStr]
    | cons c cs =>
      by_cases h : p = c
      · subst h
        simp [expectStr, ih]
      · simp [expectStr, h, Ne.symm h]

theorem expectStr_append (pre x : List Char) : expectStr pre (pre ++ x) = some x :=
  expectStr_eq_some.mpr rfl

theorem expectChar_eq_some {a : Char} {l r : List Char} :
    expectChar a l = some r ↔ l = a :: r := by
  cases l with
  | nil => simp [expectChar]
  | cons c cs =>
    by_cases h : c = a
    · subst h
      simp [expectChar]
    · simp [expectChar, h]

theorem takeWhile_exact {p : Char → Bool} {a y : List Char}
    (ha : ∀ c ∈ a, p c = true)
    (hy : y = [] ∨ ∃ c z, y = c :: z ∧ p c = false) :
    (a ++ y).takeWhile p = a ∧ (a ++ y).dropWhile p = y := by
  induction a with
  | nil =>
    rcases hy with rfl | ⟨c, z, rfl, hc⟩
    · simp
    · simp [List.takeWhile_cons, List.dropWhile_cons, hc]
  | cons b bs ih =>
    have hb : p b = true := ha b (List.mem_cons_self b bs)
    have hrest := ih (fun c hc => ha c (List.mem_cons_of_mem b hc))
    simp [List.takeWhile_cons, List.dropWhile_cons, hb, hrest.1, hrest.2]

theorem span1_exact {p : Char → Bool} {a y : List Char}
    (ha : ∀ c ∈ a, p c = true) (hne : a ≠ [])
    (hy : y = [] ∨ ∃ c z, y = c :: z ∧ p c = false) :
    span1 p (a ++ y) = some (a, y) := by
  obtain ⟨h1, h2⟩ := takeWhile_exact ha hy
  cases a with
  | nil => exact absurd rfl hne
  | cons b bs =>
    unfold span1
    rw [h1, h2]

theorem span1_eq_some {p : Char → Bool} {l : List Char} {a b : List Char}
    (h : span1 p l = some (a, b)) :
    l = a ++ b ∧ a ≠ [] ∧ (∀ c ∈ a, p c = true) ∧
      (b = [] ∨ ∃ c z, b = c :: z ∧ p c = false) := by
  unfold span1 at h
  rcases hl : l.takeWhile p with _ | ⟨c, cs⟩
  · rw [hl] at h
    simp at h
  · rw [hl] at h
    simp only [Option.some.injEq, Prod.mk.injEq] at h
    obtain ⟨h3, rfl⟩ := h
    refine ⟨?_, ?_, ?_, ?_⟩
    · rw [← h3, ← hl]
      exact (List.takeWhile_append_dropWhile p l).symm
    · rw [← h3]
      simp
    · intro x hx
      rw [← h3, ← hl] at hx
      exact List.mem_takeWhile_imp hx
    · rcases hd : l.dropWhile p with _ | ⟨d, ds⟩
      · exact Or.inl rfl
      · refine Or.inr ⟨d, ds, rfl, ?_⟩
        have := List.head?_dropWhile_not p l
        rw [hd] at this
        simpa using this

theorem dropWhile_exact {p : Char → Bool} {a y : List Char}
    (ha : ∀ c ∈ a, p c = true)
    (hy : y = [] ∨ ∃ c z, y = c :: z ∧ p c = false) :
    (a ++ y).dropWhile p = y :=
  (takeWhile_exact ha hy).2

/-- Decomposition of the substring relation. -/
theorem isSubstring_iff {pat l : List Char} :
    isSubstring pat l = true ↔ ∃ u v, l = u ++ pat ++ v := by
  induction l with
  | nil =>
    simp [isSubstring, List.isEmpty_iff]
  | cons c cs ih =>
    simp only [isSubstring, Bool.or_eq_true, ih]
    constructor
    · rintro (h | ⟨u, v, rfl⟩)
      · obtain ⟨t, ht⟩ := List.isPrefixOf_iff_prefix.mp h
        exact ⟨[], t, by simp [← ht]⟩
      · exact ⟨c :: u, v, rfl⟩
    · rintro ⟨u, v, h⟩
      rcases u with _ | ⟨b, bs⟩
      · left
        simp at h
        exact List.isPrefixOf_iff_prefix.mpr ⟨v, by simp [h]⟩
      · right
        simp at h
        exact ⟨bs, v, by simp [h.2]⟩

end Py

namespace Split

theorem lookupCat_dictAppend_same (d : List (List Char × List (List Char)))
    (k : List Char) (v : List Char) :
    lookupCat (dictAppend d k v) k = lookupCat d k ++ [v] := by
  induction d with
  | nil => simp [dictAppend, lookupCat]
  | cons hd tl ih =>
    obtain ⟨k2, vs⟩ := hd
    by_cases h : k2 = k
    · subst h
      simp [dictAppend, lookupCat]
    · simp [dictAppend, lookupCat, h, ih]

theorem lookupCat_dictAppend_ne (d : List (List Char × List (List Char)))
    (k v : List Char) (c : List Char) (h : ¬ k = c) :
    lookupCat (dictAppend d k v) c = lookupCat d c := by
  induction d with
  | nil => simp [dictAppend, lookupCat, h]
  | cons hd tl ih =>
    obtain ⟨k2, vs⟩ := hd
    by_cases h2 : k2 = k
    · subst h2
      simp [dictAppend, lookupCat, h]
    · by_cases h3 : k2 = c
      · subst h3
        simp [dictAppend, lookupCat, h2]
      · simp [dictAppend, lookupCat, h2, h3, ih]

theorem buildCats_lookup (cat : List Char → List Char)
    (pairs : List (List Char × List Char)) (c : List Char) :
    lookupCat (buildCats cat pairs) c =
      (pairs.filter (fun p => decide (cat p.1 = c))).map Prod.snd := by
  suffices h : ∀ d, lookupCat (pairs.foldl (fun d nv => dictAppend d (cat nv.1) nv.2) d) c
      = lookupCat d c ++ (pairs.filter (fun p => decide (cat p.1 = c))).map Prod.snd by
    simpa [buildCats, lookupCat] using h []
  induction pairs with
  | nil => simp
  | cons q qs ih =>
    intro d
    simp only [List.foldl_cons]
    rw [ih]
    by_cases hq : cat q.1 = c
    · rw [List.filter_cons_of_pos (by simpa using hq), ← hq,
        lookupCat_dictAppend_same]
      simp
    · rw [List.filter_cons_of_neg (by simpa using hq),
        lookupCat_dictAppend_ne _ _ _ _ hq]

end Split

/-- C6: order preservation — in the Partitioner's output, each category's
list of test slices is exactly the subsequence of the document-ordered
slice list whose names classify to that category, hence it is in original
document order and never reordered. -/
theorem partitioner_preserves_order (content : List Char) (cat : List Char) :
    Split.lookupCat (SplitCrud.split_tests content).tests cat =
      ((Split.sliceTests content (Split.scanTests content)).filter
        (fun p => decide (SplitCrud.categorize_test p.1 = cat))).map Prod.snd ∧
    List.Sublist (Split.lookupCat (SplitCrud.split_tests content).tests cat)
      ((Split.sliceTests content (Split.scanTests content)).map Prod.snd) := by
  have h1 : (SplitCrud.split_tests content).tests =
      Split.buildCats SplitCrud.categorize_test
        (Split.sliceTests content (Split.scanTests content)) := rfl
  rw [h1, Split.buildCats_lookup]
  exact ⟨rfl, List.Sublist.map Prod.snd (List.filter_sublist _)⟩

/-- C7: preamble fidelity — when the package clause and the import block
are found in the extracted helper section, every output buffer the
Partitioner emits (for any category's test list) begins with the
byte-identical preamble: the matched package clause, a blank line, the
matched import block and a blank line, identical across all categories. -/
theorem partitioner_preamble_fidelity (content : List Char)
    (pp ip : Nat) (pm pr im ir : List Char)
    (hp : searchPackage (Split.extract_test_helpers content) = some (pp, pm, pr))
    (hi : searchImport (Split.extract_test_helpers content) = some (ip, im, ir))
    (tests : List (List Char)) :
    ∃ rest,
      Split.generate_file_content (SplitCrud.split_tests content).package
          (SplitCrud.split_tests content).imports
          (SplitCrud.split_tests content).helpers tests =
        pm ++ ("\n\n").toList ++ im ++ ("\n\n").toList ++ rest := by
  have hpk : (SplitCrud.split_tests content).package = pm := by
    simp [SplitCrud.split_tests, hp, hi]
  have him : (SplitCrud.split_tests content).imports = im := by
    simp [SplitCrud.split_tests, hp, hi]
  rw [hpk, him]
  unfold Split.generate_file_content
  by_cases h : (pyStrip (SplitCrud.split_tests content).helpers).isEmpty = true
  · exact ⟨List.intercalate ['\n'] tests, by simp [h, List.append_assoc]⟩
  · exact ⟨(SplitCrud.split_tests content).helpers ++ ("\n\n").toList ++
      List.intercalate ['\n'] tests, by simp [h, List.append_assoc]⟩

/-- Witness for C7 at a concrete buffer whose helper section contains both
a package clause and an import block. -/
theorem partitioner_preamble_fidelity_witness :
    searchPackage (Split.extract_test_helpers
        (("package database\n\nimport (\n\t\"testing\"\n)\n\nfunc TestGetStats(t *testing.T) \x7b\n\tx := 1\n\x7d\n").toList)) =
      some (0, ("package database").toList, ("\n\nimport (\n\t\"testing\"\n)\n\n").toList) ∧
    ∃ rest,
      Split.generate_file_content
          (SplitCrud.split_tests (("package database\n\nimport (\n\t\"testing\"\n)\n\nfunc TestGetStats(t *testing.T) \x7b\n\tx := 1\n\x7d\n").toList)).package
          (SplitCrud.split_tests (("package database\n\nimport (\n\t\"testing\"\n)\n\nfunc TestGetStats(t *testing.T) \x7b\n\tx := 1\n\x7d\n").toList)).imports
          (SplitCrud.split_tests (("package database\n\nimport (\n\t\"testing\"\n)\n\nfunc TestGetStats(t *testing.T) \x7b\n\tx := 1\n\x7d\n").toList)).helpers
          [("func TestGetStats(t *testing.T) \x7b\n\tx := 1\n\x7d\n").toList] =
        ("package database").toList ++ ("\n\n").toList ++
          ("import (\n\t\"testing\"\n)").toList ++ ("\n\n").toList ++ rest :=
  ⟨by decide,
   partitioner_preamble_fidelity
     (("package database\n\nimport (\n\t\"testing\"\n)\n\nfunc TestGetStats(t *testing.T) \x7b\n\tx := 1\n\x7d\n").toList)
     0 18 (("package database").toList)
     (("\n\nimport (\n\t\"testing\"\n)\n\n").toList)
     (("import (\n\t\"testing\"\n)").toList) (("\n\n").toList)
     (by decide) (by decide) _⟩

namespace Py

/-- Whitespace characters are not word characters. -/
theorem space_not_word {c : Char} (h : pyIsSpace c = true) : pyIsWord c = false := by
  simp only [pyIsSpace, Bool.or_eq_true, decide_eq_true_eq] at h
  rcases h with ((((h | h) | h) | h) | h) | h <;> subst h <;> decide

/-- Word characters are not whitespace. -/
theorem word_not_space {c : Char} (h : pyIsWord c = true) : pyIsSpace c = false := by
  by_contra hh
  simp only [Bool.not_eq_false] at hh
  rw [space_not_word hh] at h
  exact Bool.noConfusion h

/-- rstrip decomposition: the stripped buffer is a prefix of the original,
and only whitespace is removed. -/
theorem rstrip_decomp (l : List Char) :
    ∃ w, l = rstrip l ++ w ∧ ∀ c ∈ w, pyIsSpace c = true := by
  refine ⟨(l.reverse.takeWhile pyIsSpace).reverse, ?_, ?_⟩
  · unfold rstrip
    conv_lhs => rw [← List.reverse_reverse l,
      ← List.takeWhile_append_dropWhile (p := pyIsSpace) (l := l.reverse)]
    rw [List.reverse_append]
  · intro c hc
    rw [List.mem_reverse] at hc
    exact List.mem_takeWhile_imp hc

/-- Line-start positions of a buffer for a `^` MULTILINE anchor, given the
initial `atStart` flag. -/
def lineStart (l : List Char) (atStart : Bool) : Nat → Prop
  | 0 => atStart = true
  | j + 1 => l[j]? = some '\n'

theorem searchAux_isSome_of_match {m : List Char → Option (List Char × List Char)}
    {l : List Char} {j : Nat} {x : List Char × List Char}
    (h : m (l.drop j) = some x) : ∀ pos, (searchAux m l pos).isSome = true := by
  obtain ⟨t0, r0⟩ := x
  induction l generalizing j with
  | nil =>
    intro pos
    rw [List.drop_nil] at h
    simp [searchAux, h]
  | cons c rest ih =>
    intro pos
    cases j with
    | zero =>
      rw [List.drop_zero] at h
      unfold searchAux
      rw [h]
      rfl
    | succ j2 =>
      rw [List.drop_succ_cons] at h
      unfold searchAux
      cases hm : m (c :: rest) with
      | some tr =>
        obtain ⟨t1, r1⟩ := tr
        rfl
      | none => exact ih h (pos + 1)

theorem searchAux_some_match {m : List Char → Option (List Char × List Char)}
    {l : List Char} {pos p : Nat} {t r : List Char}
    (h : searchAux m l pos = some (p, t, r)) : ∃ j, m (l.drop j) = some (t, r) := by
  induction l generalizing pos with
  | nil =>
    unfold searchAux at h
    cases hm : m [] with
    | none => rw [hm] at h; exact Option.noConfusion h
    | some tr =>
      obtain ⟨t0, r0⟩ := tr
      rw [hm] at h
      refine ⟨0, ?_⟩
      simp only [Option.map] at h
      injection h with h2
      injection h2 with h3 h4
      rw [List.drop_nil, hm, h4]
  | cons c rest ih =>
    unfold searchAux at h
    cases hm : m (c :: rest) with
    | some tr =>
      obtain ⟨t0, r0⟩ := tr
      rw [hm] at h
      refine ⟨0, ?_⟩
      injection h with h2
      injection h2 with h3 h4
      rw [List.drop_zero, hm, h4]
    | none =>
      rw [hm] at h
      obtain ⟨j, hj⟩ := ih h
      exact ⟨j + 1, by simpa [List.drop_succ_cons] using hj⟩

theorem searchLineAux_isSome_of_match {m : List Char → Option (List Char × List Char)}
    {l : List Char} {atStart : Bool} {j : Nat} {x : List Char × List Char}
    (hls : lineStart l atStart j) (h : m (l.drop j) = some x) :
    ∀ pos, (searchLineAux m l pos atStart).isSome = true := by
  obtain ⟨t0, r0⟩ := x
  induction l generalizing j atStart with
  | nil =>
    intro pos
    cases j with
    | zero =>
      have ha : atStart = true := hls
      subst ha
      rw [List.drop_nil] at h
      simp [searchLineAux, h]
    | succ j2 =>
      have : ([] : List Char)[j2]? = some '\n' := hls
      simp at this
  | cons c rest ih =>
    intro pos
    cases j with
    | zero =>
      have ha : atStart = true := hls
      subst ha
      rw [List.drop_zero] at h
      unfold searchLineAux
      rw [if_pos rfl, h]
      rfl
    | succ j2 =>
      have hls2 : lineStart rest (decide (c = '\n')) j2 := by
        cases j2 with
        | zero =>
          have hc : (c :: rest)[0]? = some '\n' := hls
          simp at hc
          show (decide (c = '\n')) = true
          simp [hc]
        | succ k =>
          have hc : (c :: rest)[k + 1]? = some '\n' := hls
          simpa using hc
      rw [List.drop_succ_cons] at h
      by_cases hA : atStart = true
      · subst hA
        unfold searchLineAux
        rw [if_pos rfl]
        cases hm : m (c :: rest) with
        | some tr =>
          obtain ⟨t1, r1⟩ := tr
          rfl
        | none => exact ih hls2 h (pos + 1)
      · have hA2 : atStart = false := by
          cases atStart
          · rfl
          · exact absurd rfl hA
        subst hA2
        unfold searchLineAux
        rw [if_neg (by simp)]
        exact ih hls2 h (pos + 1)

theorem searchLineAux_some_match {m : List Char → Option (List Char × List Char)}
    {l : List Char} {atStart : Bool} {pos p : Nat} {t r : List Char}
    (h : searchLineAux m l pos atStart = some (p, t, r)) :
    ∃ j, lineStart l atStart j ∧ m (l.drop j) = some (t, r) := by
  induction l generalizing pos atStart with
  | nil =>
    unfold searchLineAux at h
    by_cases hA : atStart = true
    · subst hA
      rw [if_pos rfl] at h
      cases hm : m [] with
      | none => rw [hm] at h; exact Option.noConfusion h
      | some tr =>
        obtain ⟨t0, r0⟩ := tr
        rw [hm] at h
        simp only [Option.map] at h
        injection h with h2
        injection h2 with h3 h4
        exact ⟨0, rfl, by rw [List.drop_nil, hm, h4]⟩
    · have hA2 : atStart = false := by
        cases atStart
        · rfl
        · exact absurd rfl hA
      subst hA2
      rw [if_neg (by simp)] at h
      exact Option.noConfusion h
  | cons c rest ih =>
    unfold searchLineAux at h
    by_cases hA : atStart = true
    · subst hA
      rw [if_pos rfl] at h
      cases hm : m (c :: rest) with
      | some tr =>
        obtain ⟨t0, r0⟩ := tr
        rw [hm] at h
        injection h with h2
        injection h2 with h3 h4
        exact ⟨0, rfl, by rw [List.drop_zero, hm, h4]⟩
      | none =>
        rw [hm] at h
        obtain ⟨j, hls, hj⟩ := ih h
        refine ⟨j + 1, ?_, by simpa [List.drop_succ_cons] using hj⟩
        cases j with
        | zero =>
          have : (decide (c = '\n')) = true := hls
          show (c :: rest)[0]? = some '\n'
          simp at this
          simp [this]
        | succ k =>
          have : rest[k]? = some '\n' := hls
          show (c :: rest)[k + 1]? = some '\n'
          simpa using this
    · have hA2 : atStart = false := by
        cases atStart
        · rfl
        · exact absurd rfl hA
      subst hA2
      rw [if_neg (by simp)] at h
      obtain ⟨j, hls, hj⟩ := ih h
      refine ⟨j + 1, ?_, by simpa [List.drop_succ_cons] using hj⟩
      cases j with
      | zero =>
        have : (decide (c = '\n')) = true := hls
        show (c :: rest)[0]? = some '\n'
        simp at this
        simp [this]
      | succ k =>
        have : rest[k]? = some '\n' := hls
        show (c :: rest)[k + 1]? = some '\n'
        simpa using this

end Py

namespace Py

theorem matchImportAt_some {u t r : List Char} (h : matchImportAt u = some (t, r)) :
    ∃ ws inner, u = t ++ r ∧
      t = ("import").toList ++ ws ++ '(' :: inner ++ [')'] ∧
      ws ≠ [] ∧ (∀ c ∈ ws, pyIsSpace c = true) ∧
      inner ≠ [] ∧ (∀ c ∈ inner, ¬ c = ')') := by
  unfold matchImportAt at h
  rw [Option.bind_eq_some] at h
  obtain ⟨r0, h0, h⟩ := h
  rw [Option.bind_eq_some] at h
  obtain ⟨p1, h1, h⟩ := h
  rw [Option.bind_eq_some] at h
  obtain ⟨r2, h2, h⟩ := h
  rw [Option.bind_eq_some] at h
  obtain ⟨p3, h3, h⟩ := h
  rw [Option.bind_eq_some] at h
  obtain ⟨r4, h4, h⟩ := h
  injection h with h5
  injection h5 with h6 h7
  obtain ⟨hr0, hws1, hws2, _⟩ := span1_eq_some h1
  obtain ⟨hr2, hin1, hin2, _⟩ := span1_eq_some h3
  rw [expectStr_eq_some] at h0
  rw [expectChar_eq_some] at h2
  rw [expectChar_eq_some] at h4
  refine ⟨p1.1, p3.1, ?_, h6.symm, hws1, hws2, hin1, ?_⟩
  · subst h0 h7
    rw [hr0, h2, hr2, h4, ← h6]
    simp
  · intro c hc
    have := hin2 c hc
    simpa using this

theorem matchImportAt_sound {ws inner rest : List Char}
    (hws : ws ≠ []) (hw : ∀ c ∈ ws, pyIsSpace c = true)
    (hin : inner ≠ []) (hi : ∀ c ∈ inner, ¬ c = ')') :
    matchImportAt (("import").toList ++ ws ++ '(' :: inner ++ ')' :: rest) =
      some (("import").toList ++ ws ++ '(' :: inner ++ [')'], rest) := by
  unfold matchImportAt
  rw [show ("import").toList ++ ws ++ '(' :: inner ++ ')' :: rest =
      ("import").toList ++ (ws ++ ('(' :: (inner ++ ')' :: rest))) by simp,
    expectStr_append, Option.some_bind,
    span1_exact hw hws (Or.inr ⟨'(', inner ++ ')' :: rest, rfl, by decide⟩),
    Option.some_bind]
  rw [show expectChar '(' ('(' :: (inner ++ ')' :: rest)) = some (inner ++ ')' :: rest)
      from expectChar_eq_some.mpr rfl, Option.some_bind]
  rw [span1_exact (p := fun c => c ≠ ')') (by simpa using hi) hin
      (Or.inr ⟨')', rest, rfl, by simp⟩), Option.some_bind]
  rw [show expectChar ')' (')' :: rest) = some rest from expectChar_eq_some.mpr rfl,
    Option.some_bind]

theorem matchPackageAt_some {u t r : List Char} (h : matchPackageAt u = some (t, r)) :
    ∃ ws w, u = t ++ r ∧ t = ("package").toList ++ ws ++ w ∧
      ws ≠ [] ∧ (∀ c ∈ ws, pyIsSpace c = true) ∧
      w ≠ [] ∧ (∀ c ∈ w, pyIsWord c = true) := by
  unfold matchPackageAt at h
  rw [Option.bind_eq_some] at h
  obtain ⟨r0, h0, h⟩ := h
  rw [Option.bind_eq_some] at h
  obtain ⟨p1, h1, h⟩ := h
  rw [Option.bind_eq_some] at h
  obtain ⟨p2, h2, h⟩ := h
  injection h with h5
  injection h5 with h6 h7
  obtain ⟨hr0, hws1, hws2, _⟩ := span1_eq_some h1
  obtain ⟨hr1, hw1, hw2, _⟩ := span1_eq_some h2
  rw [expectStr_eq_some] at h0
  refine ⟨p1.1, p2.1, ?_, h6.symm, hws1, hws2, hw1, hw2⟩
  subst h0 h7
  rw [hr0, hr1, ← h6]
  simp

theorem span1_isSome_head {p : Char → Bool} {c : Char} {z : List Char}
    (h : p c = true) : (span1 p (c :: z)).isSome = true := by
  simp [span1, List.takeWhile_cons, h]

theorem matchPackageAt_isSome {ws w y : List Char}
    (hws : ws ≠ []) (hw : ∀ c ∈ ws, pyIsSpace c = true)
    (hwne : w ≠ []) (hww : ∀ c ∈ w, pyIsWord c = true) :
    (matchPackageAt (("package").toList ++ ws ++ w ++ y)).isSome = true := by
  obtain ⟨wc, wrest, rfl⟩ : ∃ wc wrest, w = wc :: wrest := by
    cases w with
    | nil => exact absurd rfl hwne
    | cons a as => exact ⟨a, as, rfl⟩
  have hwc : pyIsWord wc = true := hww wc (List.mem_cons_self wc wrest)
  unfold matchPackageAt
  rw [show ("package").toList ++ ws ++ (wc :: wrest) ++ y =
      ("package").toList ++ (ws ++ (wc :: (wrest ++ y))) by simp,
    expectStr_append, Option.some_bind,
    span1_exact hw hws (Or.inr ⟨wc, wrest ++ y, rfl, word_not_space hwc⟩),
    Option.some_bind]
  cases hsp : span1 pyIsWord (wc :: (wrest ++ y)) with
  | none =>
    have := span1_isSome_head (z := wrest ++ y) hwc
    rw [hsp] at this
    exact Bool.noConfusion this
  | some q => simp

end Py

namespace Py

theorem getLast?_drop_ne_nil {l : List Char} {j : Nat} (h : l.drop j ≠ []) :
    (l.drop j).getLast? = l.getLast? := by
  conv_rhs => rw [← List.take_append_drop j l]
  rw [List.getLast?_append]
  cases hg : (l.drop j).getLast? with
  | none => exact absurd (List.getLast?_eq_none_iff.mp hg) h
  | some c => rfl

/-- If a decomposition `t ++ r` of a suffix of `R ++ "\n\n"` starts with a
nonempty region `t` not ending in a newline, then the region lies entirely
inside `R`. -/
theorem region_in_stripped {R t r : List Char} {j : Nat}
    (hdrop : (R ++ ['\n', '\n']).drop j = t ++ r) (ht : t ≠ [])
    (hlast : ∀ c, t.getLast? = some c → ¬ c = '\n') :
    j < R.length ∧ ∃ z, R.drop j = t ++ z := by
  have htpos : 0 < t.length := List.length_pos.mpr ht
  have hlen : R.length + 2 - j = t.length + r.length := by
    have := congrArg List.length hdrop
    simpa [List.length_drop] using this
  have hj2 : j ≤ R.length + 2 := by
    by_contra hgt
    push_neg at hgt
    have hnil : (R ++ ['\n', '\n']).drop j = [] :=
      List.drop_eq_nil_of_le (by simp; omega)
    rw [hdrop] at hnil
    exact ht (List.append_eq_nil.mp hnil).1
  by_cases hr : 2 ≤ r.length
  · have hjt : j + t.length ≤ R.length := by omega
    have hjR : j ≤ R.length := by omega
    have hdropR : (R ++ ['\n', '\n']).drop j = R.drop j ++ ['\n', '\n'] :=
      List.drop_append_of_le_length hjR
    have heq : t ++ r = R.drop j ++ ['\n', '\n'] := by rw [← hdrop, hdropR]
    have htlen : t.length ≤ (R.drop j).length := by
      rw [List.length_drop]
      omega
    have ht2 : t = (R.drop j).take t.length := by
      have h3 := congrArg (List.take t.length) heq
      rwa [List.take_left, List.take_append_of_le_length htlen] at h3
    refine ⟨by omega, (R.drop j).drop t.length, ?_⟩
    conv_lhs => rw [← List.take_append_drop t.length (R.drop j)]
    rw [← ht2]
  · exfalso
    push_neg at hr
    cases r with
    | nil =>
      have hT : t = (R ++ ['\n', '\n']).drop j := by simpa using hdrop.symm
      have hgl : t.getLast? = some '\n' := by
        rw [hT, getLast?_drop_ne_nil (by rw [hdrop]; simpa using ht)]
        rw [List.getLast?_append]
        rfl
      exact hlast '\n' hgl rfl
    | cons c1 rtail =>
      cases rtail with
      | nil =>
        have hjR : j ≤ R.length + 1 := by omega
        have hdrop2 : (R ++ ['\n']).drop j ++ ['\n'] = t ++ [c1] := by
          rw [← List.drop_append_of_le_length (by simpa using hjR)]
          rw [show (R ++ ['\n']) ++ ['\n'] = R ++ ['\n', '\n'] by simp, hdrop]
        have ht3 : (R ++ ['\n']).drop j = t :=
          (List.append_inj' hdrop2 rfl).1
        have hgl : t.getLast? = some '\n' := by
          rw [← ht3, getLast?_drop_ne_nil (by rw [ht3]; exact ht)]
          rw [List.getLast?_append]
          rfl
        exact hlast '\n' hgl rfl
      | cons c2 r2 => simp at hr; omega

end Py

namespace Py

/-- If the whole buffer has no import-block match, neither has the helper
section extracted from it (a right-stripped prefix plus a blank line). -/
theorem searchImport_helpers_none {content : List Char}
    (hc : searchImport content = none) :
    searchImport (Split.extract_test_helpers content) = none := by
  unfold Split.extract_test_helpers
  cases hft : searchFuncTest content with
  | none => rfl
  | some res =>
    obtain ⟨ts, mt, mr⟩ := res
    cases hs : searchImport (rstrip (content.take ts) ++ ("\n\n").toList) with
    | none => rfl
    | some ptr =>
      exfalso
      obtain ⟨p, t, r⟩ := ptr
      obtain ⟨j, hj⟩ := searchAux_some_match
        (show searchAux matchImportAt (rstrip (content.take ts) ++ ("\n\n").toList) 0 =
          some (p, t, r) from hs)
      obtain ⟨ws, inner, hu, htdef, hws1, hws2, hin1, hin2⟩ := matchImportAt_some hj
      have htne : t ≠ [] := by rw [htdef]; simp
      have hglt : t.getLast? = some ')' := by
        rw [htdef, List.getLast?_append]
        rfl
      have hdrop : (rstrip (content.take ts) ++ ['\n', '\n']).drop j = t ++ r := hu
      obtain ⟨hjR, z, hz⟩ := region_in_stripped hdrop htne
        (by intro c hcc; rw [hglt] at hcc; injection hcc with h5; subst h5; decide)
      obtain ⟨W, hWdecomp, _⟩ := rstrip_decomp (content.take ts)
      have hcdrop : content.drop j =
          ("import").toList ++ ws ++ '(' :: inner ++ ')' ::
            (z ++ (W ++ content.drop ts)) := by
        conv_lhs => rw [show content = rstrip (content.take ts) ++ (W ++ content.drop ts) from
          by rw [← List.append_assoc, ← hWdecomp, List.take_append_drop]]
        rw [List.drop_append_of_le_length (le_of_lt hjR), hz, htdef]
        simp
      have hmatch : matchImportAt (content.drop j) =
          some (("import").toList ++ ws ++ '(' :: inner ++ [')'],
            z ++ (W ++ content.drop ts)) := by
        rw [hcdrop]
        exact matchImportAt_sound hws1 hws2 hin1 hin2
      have := searchAux_isSome_of_match hmatch 0
      rw [show searchAux matchImportAt content 0 = searchImport content from rfl, hc] at this
      exact Bool.noConfusion this

/-- If the whole buffer has no line-anchored package-clause match, neither
has the helper section extracted from it. -/
theorem searchPackage_helpers_none {content : List Char}
    (hc : searchPackage content = none) :
    searchPackage (Split.extract_test_helpers content) = none := by
  unfold Split.extract_test_helpers
  cases hft : searchFuncTest content with
  | none => rfl
  | some res =>
    obtain ⟨ts, mt, mr⟩ := res
    cases hs : searchPackage (rstrip (content.take ts) ++ ("\n\n").toList) with
    | none => rfl
    | some ptr =>
      exfalso
      obtain ⟨p, t, r⟩ := ptr
      obtain ⟨j, hls, hj⟩ := searchLineAux_some_match
        (show searchLineAux matchPackageAt (rstrip (content.take ts) ++ ("\n\n").toList) 0 true =
          some (p, t, r) from hs)
      obtain ⟨ws, w, hu, htdef, hws1, hws2, hw1, hw2⟩ := matchPackageAt_some hj
      have htne : t ≠ [] := by rw [htdef]; simp [hw1]
      have hglt : ∀ c, t.getLast? = some c → ¬ c = '\n' := by
        intro c hcc hceq
        subst hceq
        rw [htdef, List.getLast?_append] at hcc
        cases hgw : w.getLast? with
        | none => exact hw1 (List.getLast?_eq_none_iff.mp hgw)
        | some d =>
          rw [hgw] at hcc
          have hd : d = '\n' := by simpa using hcc
          rw [hd] at hgw
          have hmem : '\n' ∈ w := List.mem_of_mem_getLast? (by rw [hgw]; rfl)
          have h6 := hw2 '\n' hmem
          rw [show pyIsWord '\n' = false from by decide] at h6
          exact Bool.noConfusion h6
      have hdrop : (rstrip (content.take ts) ++ ['\n', '\n']).drop j = t ++ r := hu
      obtain ⟨hjR, z, hz⟩ := region_in_stripped hdrop htne hglt
      obtain ⟨W, hWdecomp, _⟩ := rstrip_decomp (content.take ts)
      have hcontent : content = rstrip (content.take ts) ++ (W ++ content.drop ts) := by
        rw [← List.append_assoc, ← hWdecomp, List.take_append_drop]
      have hcdrop : content.drop j =
          ("package").toList ++ ws ++ w ++ (z ++ (W ++ content.drop ts)) := by
        conv_lhs => rw [hcontent]
        rw [List.drop_append_of_le_length (le_of_lt hjR), hz, htdef]
        simp
      have hmatch : (matchPackageAt (content.drop j)).isSome = true := by
        rw [hcdrop]
        exact matchPackageAt_isSome hws1 hws2 hw1 hw2
      obtain ⟨x, hx⟩ := Option.isSome_iff_exists.mp hmatch
      obtain ⟨t2, r2⟩ := x
      have hls2 : lineStart content true j := by
        cases j with
        | zero => rfl
        | succ k =>
          have hk : (rstrip (content.take ts) ++ ("\n\n").toList)[k]? = some '\n' := hls
          have hkR : k < (rstrip (content.take ts)).length := by omega
          show content[k]? = some '\n'
          rw [hcontent, List.getElem?_append, if_pos hkR]
          rw [List.getElem?_append, if_pos hkR] at hk
          exact hk
      have := searchLineAux_isSome_of_match hls2 hx 0
      rw [show searchLineAux matchPackageAt content 0 true = searchPackage content from rfl,
        hc] at this
      exact Bool.noConfusion this

end Py

/-- C10: on a buffer containing neither a parenthesized import block nor a
line matching the package-clause pattern, split_tests of
split_manager_tests.py raises AttributeError (calling .end() on the None
package match, modeled as `none`), while the otherwise-identical
split_tests of split_crud_tests.py guards this case and falls back to
helper offset 0, returning a sections dictionary. -/
theorem manager_split_tests_partial (content : List Char)
    (h1 : searchImport content = none) (h2 : searchPackage content = none) :
    SplitManager.split_tests content = none ∧
    (SplitCrud.split_tests content).helpers =
      pyStrip (Split.extract_test_helpers content) := by
  have hi := searchImport_helpers_none h1
  have hp := searchPackage_helpers_none h2
  constructor
  · simp [SplitManager.split_tests, hi, hp]
  · simp [SplitCrud.split_tests, hi, hp]

/-- Witness for C10 at a concrete buffer with neither anchor. -/
theorem manager_split_tests_partial_witness :
    searchImport (("hello world\nfunc TestA(x) \x7b\n\x7d\n").toList) = none ∧
    searchPackage (("hello world\nfunc TestA(x) \x7b\n\x7d\n").toList) = none ∧
    SplitManager.split_tests (("hello world\nfunc TestA(x) \x7b\n\x7d\n").toList) = none ∧
    (SplitCrud.split_tests (("hello world\nfunc TestA(x) \x7b\n\x7d\n").toList)).helpers =
      pyStrip (Split.extract_test_helpers (("hello world\nfunc TestA(x) \x7b\n\x7d\n").toList)) := by
  refine ⟨by decide, by decide, ?_⟩
  exact manager_split_tests_partial _ (by decide) (by decide)

namespace RemoveDuplicateMocks

/-- Greedy star over one repeated group (regex `(?:G)+` = one `G` then this
star); fuel bounds the iteration count, each iteration consuming input. -/
def methodStar (one : List Char → Option (List Char)) : Nat → List Char → List Char
  | 0, l => l
  | fuel + 1, l =>
    match one l with
    | some r => methodStar one fuel r
    | none => l

/-- One mockDB method of mockdb_pattern:
`func \(m \*mockDB\) \w+\([^)]*\)[^{]*\{[^}]+\}\n\n?` — every greedy run is
followed by a required literal outside its class, so the backtracking
search reduces to this deterministic scan. -/
def matchMockDBMethod (l : List Char) : Option (List Char) :=
  (expectStr (("func (m *mockDB) ").toList) l).bind fun r0 =>
  (span1 pyIsWord r0).bind fun p1 =>
  (expectChar '(' p1.2).bind fun r2 =>
  (expectChar ')' (r2.dropWhile (fun c => c ≠ ')'))).bind fun r4 =>
  (expectChar '\x7b' (r4.dropWhile (fun c => c ≠ '\x7b'))).bind fun r6 =>
  (span1 (fun c => c ≠ '\x7d') r6).bind fun p7 =>
  (expectChar '\x7d' p7.2).bind fun r8 =>
  (expectChar '\n' r8).bind fun r9 =>
  some (optChar '\n' r9)

/-- mockdb_pattern (remove_duplicate_mocks.py line 16) at a fixed position:
the fixed comment, the mockDB struct block up to its first closing brace,
a blank line, then one or more bound methods. -/
def matchMockDBAt (l : List Char) : Option (List Char) :=
  (expectStr (("// Mock database for testing\ntype mockDB struct \x7b").toList) l).bind fun r0 =>
  (span1 (fun c => c ≠ '\x7d') r0).bind fun p1 =>
  (expectChar '\x7d' p1.2).bind fun r2 =>
  (expectStr (("\n\n").toList) r2).bind fun r3 =>
  (matchMockDBMethod r3).map fun r4 => methodStar matchMockDBMethod r3.length r4

/-- Smallest index at which `pat` occurs in the buffer. -/
def findPat (pat : List Char) : List Char → Option Nat
  | [] => if pat.isPrefixOf [] then some 0 else none
  | c :: rest =>
    if pat.isPrefixOf (c :: rest) then some 0 else (findPat pat rest).map (· + 1)

/-- Largest index at which `pat` occurs in the buffer. -/
def findLastPat (pat : List Char) : List Char → Option Nat
  | [] => if pat.isPrefixOf [] then some 0 else none
  | c :: rest =>
    match findLastPat pat rest with
    | some i => some (i + 1)
    | none => if pat.isPrefixOf (c :: rest) then some 0 else none

/-- One mockTautulliClient method body after its opening brace:
`(?:[^}]|\}(?!\n\n))+\}\n\n?`.  The greedy run consumes up to (but not
including) the first closing brace followed by a blank line; the required
`\}\n` then matches there.  When no such position exists the run reaches
the end of input and the engine backtracks to the rightmost closing brace
followed by a newline.  In both cases the group requires at least one
consumed character before the closing brace. -/
def clientBody (l : List Char) : Option (List Char) :=
  match findPat (("\x7d\n\n").toList) l with
  | some i => if i = 0 then none else some (l.drop (i + 3))
  | none =>
    match findLastPat (("\x7d\n").toList) l with
    | some j => if j = 0 then none else some (optChar '\n' (l.drop (j + 2)))
    | none => none

/-- One mockTautulliClient method of mockclient_pattern:
`func \(m \*mockTautulliClient\) \w+\([^)]*\)[^{]*\{(?:[^}]|\}(?!\n\n))+\}\n\n?`. -/
def matchClientMethod (l : List Char) : Option (List Char) :=
  (expectStr (("func (m *mockTautulliClient) ").toList) l).bind fun r0 =>
  (span1 pyIsWord r0).bind fun p1 =>
  (expectChar '(' p1.2).bind fun r2 =>
  (expectChar ')' (r2.dropWhile (fun c => c ≠ ')'))).bind fun r4 =>
  (expectChar '\x7b' (r4.dropWhile (fun c => c ≠ '\x7b'))).bind fun r6 =>
  clientBody r6

/-- mockclient_pattern (remove_duplicate_mocks.py line 19) at a fixed
position. -/
def matchClientAt (l : List Char) : Option (List Char) :=
  (expectStr (("// Mock Tautulli client for testing\ntype mockTautulliClient struct \x7b").toList) l).bind fun r0 =>
  (span1 (fun c => c ≠ '\x7d') r0).bind fun p1 =>
  (expectChar '\x7d' p1.2).bind fun r2 =>
  (expectStr (("\n\n").toList) r2).bind fun r3 =>
  (matchClientMethod r3).map fun r4 => methodStar matchClientMethod r3.length r4

/-- re.sub(pattern, replacement-empty, buffer): delete every leftmost
non-overlapping match, scanning left to right and resuming after each
match end. -/
def subAll (m : List Char → Option (List Char)) : Nat → List Char → List Char
  | 0, l => l
  | fuel + 1, l =>
    match m l with
    | some r => subAll m fuel r
    | none =>
      match l with
      | [] => []
      | c :: rest => c :: subAll m fuel rest

/-- re.sub of mockdb_pattern with the empty replacement. -/
def pySubMockDB (l : List Char) : List Char := subAll matchMockDBAt (l.length + 1) l

/-- re.sub of mockclient_pattern with the empty replacement. -/
def pySubClient (l : List Char) : List Char := subAll matchClientAt (l.length + 1) l

/-- remove_mock_declarations from remove_duplicate_mocks.py on a file
buffer: apply both substitutions in order; the flag reports whether the
buffer changed (and hence was written back). -/
def remove_mock_declarations (content : List Char) : List Char × Bool :=
  let c2 := pySubClient (pySubMockDB content)
  if c2 = content then (content, false) else (c2, true)

end RemoveDuplicateMocks

namespace Py

theorem expectStr_none {pre l : List Char} (h : pre.isPrefixOf l = false) :
    expectStr pre l = none := by
  cases he : expectStr pre l with
  | none => rfl
  | some r =>
    rw [expectStr_eq_some.mp he] at h
    rw [List.isPrefixOf_iff_prefix.mpr ⟨r, rfl⟩] at h
    exact Bool.noConfusion h

theorem expectStr_head_ne {p c : Char} {ps cs : List Char} (h : ¬ p = c) :
    expectStr (p :: ps) (c :: cs) = none := by
  simp [expectStr, h]

theorem optChar_length_le (a : Char) (l : List Char) :
    (optChar a l).length ≤ l.length := by
  cases l with
  | nil => exact Nat.le_refl _
  | cons c cs =>
    simp only [optChar]
    by_cases h : c = a
    · simp [h]
    · simp [h]

end Py

namespace RemoveDuplicateMocks

theorem subAll_succ (m : List Char → Option (List Char)) (fuel : Nat) (l : List Char) :
    subAll m (fuel + 1) l =
      match m l with
      | some r => subAll m fuel r
      | none =>
        match l with
        | [] => []
        | c :: rest => c :: subAll m fuel rest := rfl

theorem subAll_no_match {m : List Char → Option (List Char)}
    {l : List Char} (h : ∀ j, m (l.drop j) = none) :
    ∀ fuel, subAll m fuel l = l := by
  induction l with
  | nil =>
    intro fuel
    cases fuel with
    | zero => rfl
    | succ f =>
      rw [subAll_succ, show m [] = none from by simpa using h 0]
  | cons c rest ih =>
    intro fuel
    cases fuel with
    | zero => rfl
    | succ f =>
      rw [subAll_succ, show m (c :: rest) = none from by simpa using h 0]
      show c :: subAll m f rest = c :: rest
      rw [ih (fun j => by simpa [List.drop_succ_cons] using h (j + 1)) f]

theorem methodStar_none {one : List Char → Option (List Char)} {l : List Char}
    (h : one l = none) : ∀ fuel, methodStar one fuel l = l := by
  intro fuel
  cases fuel with
  | zero => rfl
  | succ f =>
    unfold methodStar
    rw [h]

theorem methodStar_length_le (one : List Char → Option (List Char))
    (hone : ∀ l r, one l = some r → r.length ≤ l.length) :
    ∀ fuel l, (methodStar one fuel l).length ≤ l.length := by
  intro fuel
  induction fuel with
  | zero => intro l; exact Nat.le_refl _
  | succ f ih =>
    intro l
    unfold methodStar
    cases ho : one l with
    | some r => exact Nat.le_trans (ih r) (hone l r ho)
    | none => exact Nat.le_refl _

theorem matchMockDBMethod_length_le (l r : List Char)
    (h : matchMockDBMethod l = some r) : r.length ≤ l.length := by
  unfold matchMockDBMethod at h
  rw [Option.bind_eq_some] at h
  obtain ⟨r0, h0, h⟩ := h
  rw [Option.bind_eq_some] at h
  obtain ⟨p1, h1, h⟩ := h
  rw [Option.bind_eq_some] at h
  obtain ⟨r2, h2, h⟩ := h
  rw [Option.bind_eq_some] at h
  obtain ⟨r4, h4, h⟩ := h
  rw [Option.bind_eq_some] at h
  obtain ⟨r6, h6, h⟩ := h
  rw [Option.bind_eq_some] at h
  obtain ⟨p7, h7, h⟩ := h
  rw [Option.bind_eq_some] at h
  obtain ⟨r8, h8, h⟩ := h
  rw [Option.bind_eq_some] at h
  obtain ⟨r9, h9, h⟩ := h
  injection h with hres
  have l0 : l.length = 17 + r0.length := by
    have hlen := congrArg List.length (Py.expectStr_eq_some.mp h0)
    simp at hlen
    omega
  have l1 : r0 = p1.1 ++ p1.2 ∧ p1.1 ≠ [] := by
    have := Py.span1_eq_some h1
    exact ⟨this.1, this.2.1⟩
  have l2 : p1.2 = '(' :: r2 := Py.expectChar_eq_some.mp h2
  have l4 : r2.dropWhile (fun c => c ≠ ')') = ')' :: r4 := Py.expectChar_eq_some.mp h4
  have l4b : r4.length < r2.length := by
    have := (List.dropWhile_sublist (l := r2) (fun c => c ≠ ')')).length_le
    rw [l4] at this
    simp at this
    omega
  have l6 : r4.dropWhile (fun c => c ≠ '\x7b') = '\x7b' :: r6 := Py.expectChar_eq_some.mp h6
  have l6b : r6.length < r4.length := by
    have := (List.dropWhile_sublist (l := r4) (fun c => c ≠ '\x7b')).length_le
    rw [l6] at this
    simp at this
    omega
  have l7 : r6 = p7.1 ++ p7.2 := (Py.span1_eq_some h7).1
  have l8 : p7.2 = '\x7d' :: r8 := Py.expectChar_eq_some.mp h8
  have l9 : r8 = '\n' :: r9 := Py.expectChar_eq_some.mp h9
  have lres : r.length ≤ r9.length := by
    rw [← hres]
    exact Py.optChar_length_le _ _
  have e1 : r0.length = p1.1.length + p1.2.length := by rw [l1.1]; simp
  have e7 : r6.length = p7.1.length + p7.2.length := by rw [l7]; simp
  have e8 : p7.2.length = r8.length + 1 := by rw [l8]; rfl
  have e9 : r8.length = r9.length + 1 := by rw [l9]; rfl
  have e2 : p1.2.length = r2.length + 1 := by rw [l2]; rfl
  omega

theorem matchMockDBAt_length_lt (l r : List Char)
    (h : matchMockDBAt l = some r) : r.length < l.length := by
  unfold matchMockDBAt at h
  rw [Option.bind_eq_some] at h
  obtain ⟨r0, h0, h⟩ := h
  rw [Option.bind_eq_some] at h
  obtain ⟨p1, h1, h⟩ := h
  rw [Option.bind_eq_some] at h
  obtain ⟨r2, h2, h⟩ := h
  rw [Option.bind_eq_some] at h
  obtain ⟨r3, h3, h⟩ := h
  rw [Option.map_eq_some'] at h
  obtain ⟨r4, h4, hres⟩ := h
  have l0 : l.length = 49 + r0.length := by
    have hlen := congrArg List.length (Py.expectStr_eq_some.mp h0)
    simp at hlen
    omega
  have l1 : r0 = p1.1 ++ p1.2 := (Py.span1_eq_some h1).1
  have l2 : p1.2 = '\x7d' :: r2 := Py.expectChar_eq_some.mp h2
  have l3 : r2 = '\n' :: '\n' :: r3 := Py.expectStr_eq_some.mp h3
  have l4 : r4.length ≤ r3.length := matchMockDBMethod_length_le _ _ h4
  have lres : r.length ≤ r4.length := by
    rw [← hres]
    exact methodStar_length_le matchMockDBMethod matchMockDBMethod_length_le _ _
  have e1 : r0.length = p1.1.length + p1.2.length := by rw [l1]; simp
  have e2 : p1.2.length = r2.length + 1 := by rw [l2]; rfl
  have e3 : r2.length = r3.length + 2 := by rw [l3]; rfl
  omega

theorem subAll_fuel_irrel (m : List Char → Option (List Char))
    (shrink : ∀ l r, m l = some r → r.length < l.length) :
    ∀ n f1 f2 (l : List Char), l.length ≤ n → l.length < f1 → l.length < f2 →
      subAll m f1 l = subAll m f2 l := by
  intro n
  induction n with
  | zero =>
    intro f1 f2 l hn h1 h2
    have : l = [] := List.length_eq_zero.mp (Nat.le_zero.mp hn)
    subst this
    cases f1 with
    | zero => omega
    | succ g1 =>
      cases f2 with
      | zero => omega
      | succ g2 =>
        rw [subAll_succ, subAll_succ]
        cases hm : m [] with
        | some r =>
          have := shrink [] r hm
          simp at this
        | none => rfl
  | succ k ih =>
    intro f1 f2 l hn h1 h2
    cases f1 with
    | zero => omega
    | succ g1 =>
      cases f2 with
      | zero => omega
      | succ g2 =>
        rw [subAll_succ, subAll_succ]
        cases hm : m l with
        | some r =>
          have hr := shrink l r hm
          exact ih g1 g2 r (by omega) (by omega) (by omega)
        | none =>
          cases l with
          | nil => rfl
          | cons c rest =>
            show c :: subAll m g1 rest = c :: subAll m g2 rest
            rw [ih g1 g2 rest (by simp at hn; omega) (by simp at h1; omega)
              (by simp at h2; omega)]

end RemoveDuplicateMocks

namespace RemoveDuplicateMocks

/-- First index at which a matcher succeeds (decidable occurrence check). -/
def findMatchIdx (m : List Char → Option (List Char)) : List Char → Option Nat
  | [] => if (m []).isSome then some 0 else none
  | c :: rest =>
    if (m (c :: rest)).isSome then some 0 else (findMatchIdx m rest).map (· + 1)

theorem findMatchIdx_none {m : List Char → Option (List Char)} {l : List Char}
    (h : findMatchIdx m l = none) : ∀ j, m (l.drop j) = none := by
  induction l with
  | nil =>
    intro j
    rw [List.drop_nil]
    unfold findMatchIdx at h
    by_cases hm : (m []).isSome
    · rw [if_pos hm] at h
      exact Option.noConfusion h
    · exact Option.not_isSome_iff_eq_none.mp hm
  | cons c rest ih =>
    intro j
    unfold findMatchIdx at h
    by_cases hm : (m (c :: rest)).isSome
    · rw [if_pos hm] at h
      exact Option.noConfusion h
    · rw [if_neg hm] at h
      have hrec : findMatchIdx m rest = none := by
        cases hfr : findMatchIdx m rest with
        | none => rfl
        | some i => rw [hfr] at h; exact Option.noConfusion h
      cases j with
      | zero => exact Option.not_isSome_iff_eq_none.mp hm
      | succ k =>
        rw [List.drop_succ_cons]
        exact ih hrec k

theorem pySubMockDB_cons_nomatch {c : Char} {rest : List Char}
    (h : matchMockDBAt (c :: rest) = none) :
    pySubMockDB (c :: rest) = c :: pySubMockDB rest := by
  show subAll matchMockDBAt ((c :: rest).length + 1) (c :: rest) = _
  rw [List.length_cons, subAll_succ, h]
  rfl

theorem pySubClient_cons_nomatch {c : Char} {rest : List Char}
    (h : matchClientAt (c :: rest) = none) :
    pySubClient (c :: rest) = c :: pySubClient rest := by
  show subAll matchClientAt ((c :: rest).length + 1) (c :: rest) = _
  rw [List.length_cons, subAll_succ, h]
  rfl

theorem pySubMockDB_match {l r : List Char} (h : matchMockDBAt l = some r) :
    pySubMockDB l = pySubMockDB r := by
  have hr := matchMockDBAt_length_lt l r h
  show subAll matchMockDBAt (l.length + 1) l = subAll matchMockDBAt (r.length + 1) r
  rw [subAll_succ, h]
  exact subAll_fuel_irrel matchMockDBAt matchMockDBAt_length_lt r.length _ _ r
    (Nat.le_refl _) (by omega) (by omega)

theorem matchMockDBAt_head_ne {c : Char} {rest : List Char} (h : ¬ c = '/') :
    matchMockDBAt (c :: rest) = none := by
  unfold matchMockDBAt
  rw [show ("// Mock database for testing\ntype mockDB struct \x7b").toList =
      '/' :: ("/ Mock database for testing\ntype mockDB struct \x7b").toList from rfl,
    Py.expectStr_head_ne (fun hh => h hh.symm)]
  rfl

theorem matchClientAt_head_ne {c : Char} {rest : List Char} (h : ¬ c = '/') :
    matchClientAt (c :: rest) = none := by
  unfold matchClientAt
  rw [show ("// Mock Tautulli client for testing\ntype mockTautulliClient struct \x7b").toList =
      '/' :: ("/ Mock Tautulli client for testing\ntype mockTautulliClient struct \x7b").toList from rfl,
    Py.expectStr_head_ne (fun hh => h hh.symm)]
  rfl

theorem matchMockDBAt_none_noslash {l : List Char} (h : ∀ c ∈ l, ¬ c = '/') :
    ∀ j, matchMockDBAt (l.drop j) = none := by
  intro j
  cases hd : l.drop j with
  | nil => rfl
  | cons c rest =>
    have hc : c ∈ l := List.mem_of_mem_drop (by rw [hd]; exact List.mem_cons_self c rest)
    exact matchMockDBAt_head_ne (h c hc)

theorem matchClientAt_none_noslash {l : List Char} (h : ∀ c ∈ l, ¬ c = '/') :
    ∀ j, matchClientAt (l.drop j) = none := by
  intro j
  cases hd : l.drop j with
  | nil => rfl
  | cons c rest =>
    have hc : c ∈ l := List.mem_of_mem_drop (by rw [hd]; exact List.mem_cons_self c rest)
    exact matchClientAt_head_ne (h c hc)

theorem pySubMockDB_skip {P : List Char} (hP : ∀ c ∈ P, ¬ c = '/') :
    ∀ T, pySubMockDB (P ++ T) = P ++ pySubMockDB T := by
  induction P with
  | nil => intro T; simp
  | cons c ps ih =>
    intro T
    have hc : ¬ c = '/' := hP c (List.mem_cons_self c ps)
    rw [List.cons_append, pySubMockDB_cons_nomatch (matchMockDBAt_head_ne hc),
      ih (fun x hx => hP x (List.mem_cons_of_mem c hx)) T, List.cons_append]

/-- The first projection of remove_mock_declarations is always the doubly
substituted buffer. -/
theorem remove_mock_declarations_fst (content : List Char) :
    (remove_mock_declarations content).1 = pySubClient (pySubMockDB content) := by
  unfold remove_mock_declarations
  by_cases h : pySubClient (pySubMockDB content) = content
  · rw [if_pos h, h]
  · rw [if_neg h]

end RemoveDuplicateMocks

namespace Py

theorem dropWhile_head_false {p : Char → Bool} {c : Char} {z : List Char}
    (h : p c = false) : (c :: z).dropWhile p = c :: z := by
  rw [List.dropWhile_cons, h]
  rfl

end Py

namespace RemoveDuplicateMocks

/-- A well-formed single-method mockDB block (concrete instance of the
structural pattern), split along the components of mockdb_pattern. -/
def methodA : List Char :=
  ("func (m *mockDB) ").toList ++ ("Ping").toList ++ '(' :: ')' ::
    (" error ").toList ++ '\x7b' :: ("\n\treturn nil\n").toList ++ '\x7d' :: '\n' :: '\n' :: []

/-- A concrete buffer matched by mockdb_pattern: the fixed comment, a
struct block, a blank line and one method. -/
def blockA : List Char :=
  ("// Mock database for testing\ntype mockDB struct \x7b").toList ++
    ("\n\tconn bool\n").toList ++ '\x7d' :: '\n' :: '\n' :: methodA

theorem matchMockDBMethod_methodA (rest : List Char) :
    matchMockDBMethod (methodA ++ rest) = some rest := by
  unfold matchMockDBMethod methodA
  simp only [List.append_assoc, List.cons_append, List.nil_append]
  rw [Py.expectStr_append]
  simp only [Option.some_bind]
  rw [Py.span1_exact (p := pyIsWord) (by decide) (by decide)
    (Or.inr ⟨'(', _, rfl, by decide⟩)]
  simp only [Option.some_bind]
  rw [show Py.expectChar '(' ('(' :: ')' :: ((" error ").toList ++ '\x7b' ::
      (("\n\treturn nil\n").toList ++ '\x7d' :: '\n' :: '\n' :: rest))) =
      some (')' :: ((" error ").toList ++ '\x7b' ::
      (("\n\treturn nil\n").toList ++ '\x7d' :: '\n' :: '\n' :: rest)))
    from Py.expectChar_eq_some.mpr rfl]
  simp only [Option.some_bind]
  rw [Py.dropWhile_head_false (by decide)]
  rw [show Py.expectChar ')' (')' :: ((" error ").toList ++ '\x7b' ::
      (("\n\treturn nil\n").toList ++ '\x7d' :: '\n' :: '\n' :: rest))) =
      some ((" error ").toList ++ '\x7b' ::
      (("\n\treturn nil\n").toList ++ '\x7d' :: '\n' :: '\n' :: rest))
    from Py.expectChar_eq_some.mpr rfl]
  simp only [Option.some_bind]
  rw [Py.dropWhile_exact (by decide) (Or.inr ⟨'\x7b', _, rfl, by decide⟩)]
  rw [show Py.expectChar '\x7b' ('\x7b' ::
      (("\n\treturn nil\n").toList ++ '\x7d' :: '\n' :: '\n' :: rest)) =
      some (("\n\treturn nil\n").toList ++ '\x7d' :: '\n' :: '\n' :: rest)
    from Py.expectChar_eq_some.mpr rfl]
  simp only [Option.some_bind]
  rw [Py.span1_exact (by decide) (by decide) (Or.inr ⟨'\x7d', _, rfl, by decide⟩)]
  simp only [Option.some_bind]
  rw [show Py.expectChar '\x7d' ('\x7d' :: '\n' :: '\n' :: rest) =
      some ('\n' :: '\n' :: rest) from Py.expectChar_eq_some.mpr rfl]
  simp only [Option.some_bind]
  rw [show Py.expectChar '\n' ('\n' :: '\n' :: rest) = some ('\n' :: rest)
    from Py.expectChar_eq_some.mpr rfl]
  simp only [Option.some_bind]
  simp [Py.optChar]

theorem matchMockDBAt_blockA (rest : List Char)
    (h : (("func (m *mockDB) ").toList).isPrefixOf rest = false) :
    matchMockDBAt (blockA ++ rest) = some rest := by
  have hstop : matchMockDBMethod rest = none := by
    unfold matchMockDBMethod
    rw [Py.expectStr_none h]
    rfl
  unfold matchMockDBAt blockA
  simp only [List.append_assoc, List.cons_append, List.nil_append]
  rw [Py.expectStr_append]
  simp only [Option.some_bind]
  rw [Py.span1_exact (by decide) (by decide) (Or.inr ⟨'\x7d', _, rfl, by decide⟩)]
  simp only [Option.some_bind]
  rw [show Py.expectChar '\x7d' ('\x7d' :: '\n' :: '\n' :: (methodA ++ rest)) =
      some ('\n' :: '\n' :: (methodA ++ rest)) from Py.expectChar_eq_some.mpr rfl]
  simp only [Option.some_bind]
  rw [show Py.expectStr (("\n\n").toList) ('\n' :: '\n' :: (methodA ++ rest)) =
      some (methodA ++ rest) from Py.expectStr_eq_some.mpr rfl]
  simp only [Option.some_bind]
  rw [matchMockDBMethod_methodA]
  rw [show Option.map (fun r4 => methodStar matchMockDBMethod (methodA ++ rest).length r4)
      (some rest) = some (methodStar matchMockDBMethod (methodA ++ rest).length rest) from rfl]
  rw [show methodStar matchMockDBMethod (methodA ++ rest).length rest = rest
    from methodStar_none hstop _]

end RemoveDuplicateMocks

namespace RemoveDuplicateMocks

/-- A buffer on which the deduplicating substitution is not idempotent:
a partial block header, a complete block, and a continuation; removing the
complete (leftmost) match splices the partial header and the continuation
into a new match. -/
def nonIdemBuf : List Char :=
  ("// Mock database for testing\ntype mockDB struct// Mock database for testing\ntype mockDB struct \x7bs\x7d\n\nfunc (m *mockDB) A() int\x7bt\x7d\n\n \x7ba\x7d\n\nfunc (m *mockDB) B() int\x7bu\x7d\n\n").toList

end RemoveDuplicateMocks

/-- C3 counterexample: a buffer holding two occurrences of the mockDB
structural pattern; remove_mock_declarations leaves zero copies (the empty
buffer), not exactly one — the first occurrence does not survive. -/
theorem dedup_removes_the_first_copy_too :
    Py.isSubstring (("// Mock database for testing").toList)
      (RemoveDuplicateMocks.blockA ++ RemoveDuplicateMocks.blockA) = true ∧
    (RemoveDuplicateMocks.remove_mock_declarations
      (RemoveDuplicateMocks.blockA ++ RemoveDuplicateMocks.blockA)).1 = [] ∧
    Py.isSubstring (("// Mock database for testing").toList)
      ((RemoveDuplicateMocks.remove_mock_declarations
        (RemoveDuplicateMocks.blockA ++ RemoveDuplicateMocks.blockA)).1) = false := by
  refine ⟨by decide, by decide, by decide⟩

/-- C3 amended: remove_mock_declarations removes every occurrence its
left-to-right pass matches — including the first — leaving none: around
pattern-free separators, both copies of a mock block are deleted. -/
theorem dedup_removes_every_occurrence (X Y Z : List Char)
    (hX : ∀ c ∈ X, ¬ c = '/') (hY : ∀ c ∈ Y, ¬ c = '/') (hZ : ∀ c ∈ Z, ¬ c = '/')
    (hY2 : (("func (m *mockDB) ").toList).isPrefixOf
      (Y ++ (RemoveDuplicateMocks.blockA ++ Z)) = false)
    (hZ2 : (("func (m *mockDB) ").toList).isPrefixOf Z = false) :
    (RemoveDuplicateMocks.remove_mock_declarations
      (X ++ RemoveDuplicateMocks.blockA ++ Y ++ RemoveDuplicateMocks.blockA ++ Z)).1 =
      X ++ Y ++ Z := by
  have h1 : RemoveDuplicateMocks.matchMockDBAt
      (RemoveDuplicateMocks.blockA ++ (Y ++ (RemoveDuplicateMocks.blockA ++ Z))) =
      some (Y ++ (RemoveDuplicateMocks.blockA ++ Z)) :=
    RemoveDuplicateMocks.matchMockDBAt_blockA _ hY2
  have h2 : RemoveDuplicateMocks.matchMockDBAt (RemoveDuplicateMocks.blockA ++ Z) =
      some Z := RemoveDuplicateMocks.matchMockDBAt_blockA _ hZ2
  have e1 : RemoveDuplicateMocks.pySubMockDB
      (X ++ RemoveDuplicateMocks.blockA ++ Y ++ RemoveDuplicateMocks.blockA ++ Z) =
      X ++ (Y ++ Z) := by
    rw [show X ++ RemoveDuplicateMocks.blockA ++ Y ++ RemoveDuplicateMocks.blockA ++ Z =
        X ++ (RemoveDuplicateMocks.blockA ++ (Y ++ (RemoveDuplicateMocks.blockA ++ Z)))
      from by simp [List.append_assoc]]
    rw [RemoveDuplicateMocks.pySubMockDB_skip hX,
      RemoveDuplicateMocks.pySubMockDB_match h1,
      RemoveDuplicateMocks.pySubMockDB_skip hY,
      RemoveDuplicateMocks.pySubMockDB_match h2,
      show RemoveDuplicateMocks.pySubMockDB Z = Z from
        RemoveDuplicateMocks.subAll_no_match
          (RemoveDuplicateMocks.matchMockDBAt_none_noslash hZ) _]
  have hXYZ : ∀ c ∈ X ++ (Y ++ Z), ¬ c = '/' := by
    intro c hc
    rcases List.mem_append.mp hc with h | h
    · exact hX c h
    · rcases List.mem_append.mp h with h3 | h3
      · exact hY c h3
      · exact hZ c h3
  have e2 : RemoveDuplicateMocks.pySubClient (X ++ (Y ++ Z)) = X ++ (Y ++ Z) :=
    RemoveDuplicateMocks.subAll_no_match
      (RemoveDuplicateMocks.matchClientAt_none_noslash hXYZ) _
  rw [RemoveDuplicateMocks.remove_mock_declarations_fst, e1, e2, List.append_assoc]

/-- Witness for the amended C3 at concrete separators. -/
theorem dedup_removes_every_occurrence_witness :
    (∀ c ∈ ("package sync\n\n").toList, ¬ c = '/') ∧
    (("func (m *mockDB) ").toList).isPrefixOf
      (("\nmid\n").toList ++ (RemoveDuplicateMocks.blockA ++ ("\ntail\n").toList)) = false ∧
    (RemoveDuplicateMocks.remove_mock_declarations
      (("package sync\n\n").toList ++ RemoveDuplicateMocks.blockA ++ ("\nmid\n").toList ++
        RemoveDuplicateMocks.blockA ++ ("\ntail\n").toList)).1 =
      ("package sync\n\n").toList ++ ("\nmid\n").toList ++ ("\ntail\n").toList :=
  ⟨by decide, by decide,
   dedup_removes_every_occurrence _ _ _ (by decide) (by decide) (by decide)
     (by decide) (by decide)⟩

/-- C8 counterexample: the deduplicating substitution is not idempotent —
on `nonIdemBuf`, removing the single leftmost match splices together a new
match, so a second application changes the buffer again. -/
theorem dedup_not_idempotent :
    (RemoveDuplicateMocks.remove_mock_declarations
      ((RemoveDuplicateMocks.remove_mock_declarations RemoveDuplicateMocks.nonIdemBuf).1)).1 ≠
    (RemoveDuplicateMocks.remove_mock_declarations RemoveDuplicateMocks.nonIdemBuf).1 := by
  decide

/-- C8 amended: a buffer in which neither structural pattern matches at any
position is a fixed point of remove_mock_declarations (and is reported
unchanged); idempotence in general fails because a removal can splice
together a new occurrence. -/
theorem dedup_fixed_point_of_no_occurrence (b : List Char)
    (h1 : RemoveDuplicateMocks.findMatchIdx RemoveDuplicateMocks.matchMockDBAt b = none)
    (h2 : RemoveDuplicateMocks.findMatchIdx RemoveDuplicateMocks.matchClientAt b = none) :
    RemoveDuplicateMocks.remove_mock_declarations b = (b, false) := by
  have e1 : RemoveDuplicateMocks.pySubMockDB b = b :=
    RemoveDuplicateMocks.subAll_no_match (RemoveDuplicateMocks.findMatchIdx_none h1) _
  have e2 : RemoveDuplicateMocks.pySubClient b = b :=
    RemoveDuplicateMocks.subAll_no_match (RemoveDuplicateMocks.findMatchIdx_none h2) _
  unfold RemoveDuplicateMocks.remove_mock_declarations
  rw [e1, e2, if_pos rfl]

/-- Witness for the amended C8 at a concrete pattern-free buffer. -/
theorem dedup_fixed_point_witness :
    RemoveDuplicateMocks.findMatchIdx RemoveDuplicateMocks.matchMockDBAt
      (("package sync\n\nfunc TestA(x) \x7b\n\x7d\n").toList) = none ∧
    RemoveDuplicateMocks.findMatchIdx RemoveDuplicateMocks.matchClientAt
      (("package sync\n\nfunc TestA(x) \x7b\n\x7d\n").toList) = none ∧
    RemoveDuplicateMocks.remove_mock_declarations
      (("package sync\n\nfunc TestA(x) \x7b\n\x7d\n").toList) =
      ((("package sync\n\nfunc TestA(x) \x7b\n\x7d\n").toList), false) :=
  ⟨by decide, by decide, dedup_fixed_point_of_no_occurrence _ (by decide) (by decide)⟩

namespace Py

theorem expectStr_cons_self (c : Char) (ps cs : List Char) :
    expectStr (c :: ps) (c :: cs) = expectStr ps cs := by
  simp [expectStr]

theorem expectStr_nil_pre (l : List Char) : expectStr [] l = some l := rfl

theorem expectChar_cons_self (a : Char) (cs : List Char) :
    expectChar a (a :: cs) = some cs := by
  simp [expectChar]

/-- Head-condition variant of `span1_exact`. -/
theorem span1_exact_head {p : Char → Bool} {a y : List Char}
    (ha : ∀ c ∈ a, p c = true) (hne : a ≠ [])
    (hy : ∀ c, y.head? = some c → p c = false) :
    span1 p (a ++ y) = some (a, y) := by
  refine span1_exact ha hne ?_
  cases y with
  | nil => exact Or.inl rfl
  | cons c z => exact Or.inr ⟨c, z, rfl, hy c rfl⟩

/-- Head-condition variant of `dropWhile_exact`. -/
theorem dropWhile_exact_head {p : Char → Bool} {a y : List Char}
    (ha : ∀ c ∈ a, p c = true)
    (hy : ∀ c, y.head? = some c → p c = false) :
    (a ++ y).dropWhile p = y := by
  refine dropWhile_exact ha ?_
  cases y with
  | nil => exact Or.inl rfl
  | cons c z => exact Or.inr ⟨c, z, rfl, hy c rfl⟩

end Py

namespace Split

/-- Soundness of the test-header matcher: a buffer shaped like the pattern
components, followed by any remainder, matches with that remainder. -/
theorem matchTestHeaderAt_sound {ws w ws2 inner ws3 r : List Char}
    (hws1 : ws ≠ []) (hws2 : ∀ c ∈ ws, pyIsSpace c = true)
    (hw1 : w ≠ []) (hw2 : ∀ c ∈ w, pyIsWord c = true)
    (hws2b : ∀ c ∈ ws2, pyIsSpace c = true)
    (hin1 : inner ≠ []) (hin2 : ∀ c ∈ inner, ¬ c = ')')
    (hws3 : ∀ c ∈ ws3, pyIsSpace c = true) :
    matchTestHeaderAt (("func").toList ++ (ws ++ (("Test").toList ++ (w ++ (ws2 ++
      ('(' :: (inner ++ (')' :: (ws3 ++ ('\x7b' :: r)))))))))) =
      some (("Test").toList ++ w, r) := by
  have hyT : ∀ c : Char,
      (("Test").toList ++ (w ++ (ws2 ++ ('(' :: (inner ++ (')' :: (ws3 ++
        ('\x7b' :: r)))))))).head? = some c → pyIsSpace c = false := by
    intro c hc
    simp only [List.cons_append, List.head?_cons] at hc
    injection hc with h2
    rw [← h2]
    decide
  have hyW : ∀ c : Char,
      (ws2 ++ ('(' :: (inner ++ (')' :: (ws3 ++ ('\x7b' :: r)))))).head? = some c →
        pyIsWord c = false := by
    intro c hc
    cases ws2 with
    | nil =>
      simp only [List.nil_append, List.head?_cons] at hc
      injection hc with h2
      rw [← h2]
      decide
    | cons s2 t2 =>
      simp only [List.cons_append, List.head?_cons] at hc
      injection hc with h2
      rw [← h2]
      exact Py.space_not_word (hws2b s2 (List.mem_cons_self s2 t2))
  have hyP : ∀ c : Char,
      (('(' : Char) :: (inner ++ (')' :: (ws3 ++ ('\x7b' :: r))))).head? = some c →
        pyIsSpace c = false := by
    intro c hc
    simp only [List.head?_cons] at hc
    injection hc with h2
    rw [← h2]
    decide
  have hyR : ∀ c : Char,
      ((')' : Char) :: (ws3 ++ ('\x7b' :: r))).head? = some c →
        decide (¬ c = ')') = false := by
    intro c hc
    simp only [List.head?_cons] at hc
    injection hc with h2
    rw [← h2]
    simp
  have hyB : ∀ c : Char, (('\x7b' : Char) :: r).head? = some c → pyIsSpace c = false := by
    intro c hc
    simp only [List.head?_cons] at hc
    injection hc with h2
    rw [← h2]
    decide
  unfold matchTestHeaderAt
  rw [Py.expectStr_append, Option.some_bind,
    Py.span1_exact_head hws2 hws1 hyT, Option.some_bind,
    Py.expectStr_append, Option.some_bind,
    Py.span1_exact_head hw2 hw1 hyW, Option.some_bind,
    Py.dropWhile_exact_head hws2b hyP,
    Py.expectChar_cons_self, Option.some_bind,
    Py.span1_exact_head (p := fun c => decide (c ≠ ')'))
      (fun c hc => by simp [hin2 c hc]) hin1 hyR,
    Option.some_bind,
    Py.expectChar_cons_self, Option.some_bind,
    Py.dropWhile_exact_head hws3 hyB,
    Py.expectChar_cons_self, Option.some_bind]

end Split

namespace Split

/-- Completeness of the test-header matcher: a successful match decomposes
the buffer into the pattern components followed by the remainder. -/
theorem matchTestHeaderAt_some {l nm r : List Char}
    (h : matchTestHeaderAt l = some (nm, r)) :
    ∃ ws w ws2 inner ws3,
      l = ("func").toList ++ (ws ++ (("Test").toList ++ (w ++ (ws2 ++
        ('(' :: (inner ++ (')' :: (ws3 ++ ('\x7b' :: r))))))))) ∧
      nm = ("Test").toList ++ w ∧
      ws ≠ [] ∧ (∀ c ∈ ws, pyIsSpace c = true) ∧
      w ≠ [] ∧ (∀ c ∈ w, pyIsWord c = true) ∧
      (∀ c ∈ ws2, pyIsSpace c = true) ∧
      inner ≠ [] ∧ (∀ c ∈ inner, ¬ c = ')') ∧
      (∀ c ∈ ws3, pyIsSpace c = true) := by
  unfold matchTestHeaderAt at h
  rw [Option.bind_eq_some] at h
  obtain ⟨r0, h0, h⟩ := h
  rw [Option.bind_eq_some] at h
  obtain ⟨p1, h1, h⟩ := h
  rw [Option.bind_eq_some] at h
  obtain ⟨r2, h2, h⟩ := h
  rw [Option.bind_eq_some] at h
  obtain ⟨p3, h3, h⟩ := h
  rw [Option.bind_eq_some] at h
  obtain ⟨r5, h5, h⟩ := h
  rw [Option.bind_eq_some] at h
  obtain ⟨p6, h6, h⟩ := h
  rw [Option.bind_eq_some] at h
  obtain ⟨r7, h7, h⟩ := h
  rw [Option.bind_eq_some] at h
  obtain ⟨r9, h9, h⟩ := h
  injection h with h10
  injection h10 with h11 h12
  subst h12
  obtain ⟨e1, hws1, hws2, _⟩ := Py.span1_eq_some h1
  obtain ⟨e3, hw1, hw2, _⟩ := Py.span1_eq_some h3
  obtain ⟨e6, hin1, hin2b, _⟩ := Py.span1_eq_some h6
  have e0 := Py.expectStr_eq_some.mp h0
  have e2 := Py.expectStr_eq_some.mp h2
  have e5 := Py.expectChar_eq_some.mp h5
  have e7 := Py.expectChar_eq_some.mp h7
  have e9 := Py.expectChar_eq_some.mp h9
  obtain ⟨ws2v, hws2v⟩ : ∃ x, x = p3.2.takeWhile pyIsSpace := ⟨_, rfl⟩
  obtain ⟨ws3v, hws3v⟩ : ∃ x, x = r7.takeWhile pyIsSpace := ⟨_, rfl⟩
  have d5 : p3.2 = ws2v ++ ('(' :: r5) := by
    rw [hws2v]
    conv_lhs => rw [← List.takeWhile_append_dropWhile (p := pyIsSpace) (l := p3.2)]
    rw [e5]
  have d9 : r7 = ws3v ++ ('\x7b' :: r9) := by
    rw [hws3v]
    conv_lhs => rw [← List.takeWhile_append_dropWhile (p := pyIsSpace) (l := r7)]
    rw [e9]
  refine ⟨p1.1, p3.1, ws2v, p6.1, ws3v,
    ?_, h11.symm, hws1, hws2, hw1, hw2,
    fun c hc => List.mem_takeWhile_imp (hws2v ▸ hc),
    hin1, by simpa using hin2b,
    fun c hc => List.mem_takeWhile_imp (hws3v ▸ hc)⟩
  rw [e0, e1, e2, e3, d5, e6, e7, d9]

end Split

namespace Split

/-- Names recovered from a buffer by re-running the test scanner. -/
def declNames (b : List Char) : List (List Char) :=
  (scanTests b).map Prod.fst

theorem matchTestHeaderAt_length_lt {l nm r : List Char}
    (h : matchTestHeaderAt l = some (nm, r)) : r.length < l.length := by
  obtain ⟨ws, w, ws2, inner, ws3, he, _⟩ := matchTestHeaderAt_some h
  have := congrArg List.length he
  simp at this
  omega

theorem scanTestsGo_succ (fuel : Nat) (l : List Char) (pos : Nat) :
    scanTestsGo (fuel + 1) l pos =
      match matchTestHeaderAt l with
      | some (n, r) => (n, pos) :: scanTestsGo fuel r (pos + (l.length - r.length))
      | none =>
        match l with
        | [] => []
        | _ :: rest => scanTestsGo fuel rest (pos + 1) := rfl

theorem scanTestsGo_empty {t : List Char}
    (h : ∀ j, matchTestHeaderAt (t.drop j) = none) :
    ∀ fuel pos, scanTestsGo fuel t pos = [] := by
  induction t with
  | nil =>
    intro fuel pos
    cases fuel with
    | zero => rfl
    | succ f => rw [scanTestsGo_succ, show matchTestHeaderAt [] = none from by simpa using h 0]
  | cons c rest ih =>
    intro fuel pos
    cases fuel with
    | zero => rfl
    | succ f =>
      rw [scanTestsGo_succ, show matchTestHeaderAt (c :: rest) = none from by simpa using h 0]
      exact ih (fun j => by simpa [List.drop_succ_cons] using h (j + 1)) f (pos + 1)

theorem scanTestsGo_fuel_irrel :
    ∀ n f1 f2 (l : List Char) (pos : Nat), l.length ≤ n → l.length < f1 → l.length < f2 →
      scanTestsGo f1 l pos = scanTestsGo f2 l pos := by
  intro n
  induction n with
  | zero =>
    intro f1 f2 l pos hn h1 h2
    have hl : l = [] := List.length_eq_zero.mp (Nat.le_zero.mp hn)
    subst hl
    cases f1 with
    | zero => omega
    | succ g1 =>
      cases f2 with
      | zero => omega
      | succ g2 => rfl
  | succ k ih =>
    intro f1 f2 l pos hn h1 h2
    cases f1 with
    | zero => omega
    | succ g1 =>
      cases f2 with
      | zero => omega
      | succ g2 =>
        rw [scanTestsGo_succ, scanTestsGo_succ]
        cases hm : matchTestHeaderAt l with
        | some nr =>
          obtain ⟨nm, r⟩ := nr
          have hr := matchTestHeaderAt_length_lt hm
          show (nm, pos) :: scanTestsGo g1 r (pos + (l.length - r.length)) =
            (nm, pos) :: scanTestsGo g2 r (pos + (l.length - r.length))
          rw [ih g1 g2 r (pos + (l.length - r.length)) (by omega) (by omega) (by omega)]
        | none =>
          cases l with
          | nil => rfl
          | cons c rest =>
            show scanTestsGo g1 rest (pos + 1) = scanTestsGo g2 rest (pos + 1)
            rw [ih g1 g2 rest (pos + 1) (by simp at hn; omega) (by simp at h1; omega)
              (by simp at h2; omega)]

end Split

namespace Py

/-- rstrip distributes over an append whose left part ends in a
non-whitespace character. -/
theorem rstrip_append_nonspace {a b : List Char} {c : Char}
    (hl : a.getLast? = some c) (hc : pyIsSpace c = false) :
    rstrip (a ++ b) = a ++ rstrip b := by
  unfold rstrip
  rw [List.reverse_append, List.dropWhile_append]
  have hha : a.reverse.dropWhile pyIsSpace = a.reverse := by
    cases ha : a.reverse with
    | nil => rfl
    | cons x xs =>
      have hx : x = c := by
        have h2 : a.reverse.head? = some x := by rw [ha]; rfl
        rw [List.head?_reverse] at h2
        rw [hl] at h2
        injection h2 with h3
        exact h3.symm
      rw [List.dropWhile_cons, hx, hc]
      simp
  by_cases hb : (b.reverse.dropWhile pyIsSpace).isEmpty = true
  · rw [if_pos hb, hha, List.reverse_reverse]
    rw [List.isEmpty_iff.mp hb]
    simp
  · rw [if_neg hb, List.reverse_append, List.reverse_reverse]

/-- Variant of `region_in_stripped` for a single-newline tail. -/
theorem region_one {R t r : List Char} {j : Nat}
    (hdrop : (R ++ ['\n']).drop j = t ++ r) (ht : t ≠ [])
    (hlast : ∀ c, t.getLast? = some c → ¬ c = '\n') :
    j < R.length ∧ ∃ z, R.drop j = t ++ z := by
  have htpos : 0 < t.length := List.length_pos.mpr ht
  have hlen : R.length + 1 - j = t.length + r.length := by
    have := congrArg List.length hdrop
    simpa [List.length_drop] using this
  cases r with
  | nil =>
    exfalso
    have hT : t = (R ++ ['\n']).drop j := by simpa using hdrop.symm
    have hgl : t.getLast? = some '\n' := by
      rw [hT, getLast?_drop_ne_nil (by rw [hdrop]; simpa using ht)]
      rw [List.getLast?_append]
      rfl
    exact hlast '\n' hgl rfl
  | cons c1 rtail =>
    have hjt : j + t.length ≤ R.length := by
      have hlen2 : (c1 :: rtail).length = rtail.length + 1 := by simp
      omega
    have hjR : j ≤ R.length := by omega
    have hdropR : (R ++ ['\n']).drop j = R.drop j ++ ['\n'] :=
      List.drop_append_of_le_length hjR
    have heq : t ++ c1 :: rtail = R.drop j ++ ['\n'] := by rw [← hdrop, hdropR]
    have htlen : t.length ≤ (R.drop j).length := by
      rw [List.length_drop]
      omega
    have ht2 : t = (R.drop j).take t.length := by
      have h3 := congrArg (List.take t.length) heq
      rwa [List.take_left, List.take_append_of_le_length htlen] at h3
    refine ⟨by omega, (R.drop j).drop t.length, ?_⟩
    conv_lhs => rw [← List.take_append_drop t.length (R.drop j)]
    rw [← ht2]

end Py

namespace Split

/-- Rescanning the right-stripped tail region of a slice (with its appended
newline) finds no test-header match, provided the original region had
none. -/
theorem rescan_tail_none {r : List Char} {m : Nat}
    (hno : ∀ j, j < m → matchTestHeaderAt (r.drop j) = none) :
    ∀ j, matchTestHeaderAt ((Py.rstrip (r.take m) ++ ['\n']).drop j) = none := by
  intro j
  cases hopt : matchTestHeaderAt ((Py.rstrip (r.take m) ++ ['\n']).drop j) with
  | none => rfl
  | some x =>
    exfalso
    obtain ⟨nm2, r2⟩ := x
    obtain ⟨ws, w, ws2, inner, ws3, he, hnm, hws1, hws2, hw1, hw2, hws2b, hin1, hin2, hws3⟩ :=
      matchTestHeaderAt_some hopt
    have he2 : (Py.rstrip (r.take m) ++ ['\n']).drop j =
        (("func").toList ++ (ws ++ (("Test").toList ++ (w ++ (ws2 ++ ('(' :: (inner ++
          (')' :: (ws3 ++ ['\x7b']))))))))) ++ r2 := by
      rw [he]
      simp [List.append_assoc]
    have htne : (("func").toList ++ (ws ++ (("Test").toList ++ (w ++ (ws2 ++ ('(' :: (inner ++
        (')' :: (ws3 ++ ['\x7b']))))))))) ≠ [] := by simp
    have hgl : ∀ c, ((("func").toList ++ (ws ++ (("Test").toList ++ (w ++ (ws2 ++ ('(' :: (inner ++
        (')' :: (ws3 ++ ['\x7b'])))))))))).getLast? = some c → ¬ c = '\n' := by
      intro c hcc hceq
      subst hceq
      have hsh : (("func").toList ++ (ws ++ (("Test").toList ++ (w ++ (ws2 ++ ('(' :: (inner ++
          (')' :: (ws3 ++ ['\x7b']))))))))) =
          (("func").toList ++ ws ++ ("Test").toList ++ w ++ ws2 ++ '(' :: inner ++
            ')' :: ws3) ++ ['\x7b'] := by
        simp [List.append_assoc]
      rw [hsh, List.getLast?_append] at hcc
      injection hcc with h5
      exact absurd h5 (by decide)
    obtain ⟨hjR, z, hz⟩ := Py.region_one he2 htne hgl
    obtain ⟨W, hW, _⟩ := Py.rstrip_decomp (r.take m)
    have hmlen : (r.take m).length ≤ m := by
      rw [List.length_take]
      exact Nat.min_le_left _ _
    have hR1len : (Py.rstrip (r.take m)).length ≤ (r.take m).length := by
      conv_rhs => rw [hW]
      simp
    have hjm : j < m := Nat.lt_of_lt_of_le hjR (Nat.le_trans hR1len hmlen)
    have hrdrop : r.drop j = (("func").toList ++ (ws ++ (("Test").toList ++ (w ++ (ws2 ++
        ('(' :: (inner ++ (')' :: (ws3 ++ ['\x7b']))))))))) ++ (z ++ (W ++ r.drop m)) := by
      conv_lhs => rw [← List.take_append_drop m r]
      rw [List.drop_append_of_le_length (Nat.le_trans (Nat.le_of_lt hjR) hR1len), hW,
        List.drop_append_of_le_length (Nat.le_of_lt hjR), hz]
      simp [List.append_assoc]
    have hsound := matchTestHeaderAt_sound (r := z ++ (W ++ r.drop m))
      hws1 hws2 hw1 hw2 hws2b hin1 hin2 hws3
    have hshape : (("func").toList ++ (ws ++ (("Test").toList ++ (w ++ (ws2 ++
        ('(' :: (inner ++ (')' :: (ws3 ++ ['\x7b']))))))))) ++ (z ++ (W ++ r.drop m)) =
        ("func").toList ++ (ws ++ (("Test").toList ++ (w ++ (ws2 ++
        ('(' :: (inner ++ (')' :: (ws3 ++ ('\x7b' :: (z ++ (W ++ r.drop m))))))))))) := by
      simp [List.append_assoc]
    have hmatch : matchTestHeaderAt (r.drop j) =
        some (("Test").toList ++ w, z ++ (W ++ r.drop m)) := by
      rw [hrdrop, hshape]
      exact hsound
    rw [hno j hjm] at hmatch
    exact Option.noConfusion hmatch

end Split

namespace Split

/-- A slice whose text is a matched test header followed by a match-free
region (right-stripped, newline appended) rescans to exactly its own
name. -/
theorem slice_rescan {ws w ws2 inner ws3 r : List Char} {m : Nat}
    (hws1 : ws ≠ []) (hws2 : ∀ c ∈ ws, pyIsSpace c = true)
    (hw1 : w ≠ []) (hw2 : ∀ c ∈ w, pyIsWord c = true)
    (hws2b : ∀ c ∈ ws2, pyIsSpace c = true)
    (hin1 : inner ≠ []) (hin2 : ∀ c ∈ inner, ¬ c = ')')
    (hws3 : ∀ c ∈ ws3, pyIsSpace c = true)
    (hno : ∀ j, j < m → matchTestHeaderAt (r.drop j) = none) :
    declNames (Py.rstrip ((("func").toList ++ (ws ++ (("Test").toList ++ (w ++ (ws2 ++
      ('(' :: (inner ++ (')' :: (ws3 ++ ['\x7b']))))))))) ++ r.take m) ++ ['\n']) =
      [("Test").toList ++ w] := by
  obtain ⟨C, hCdef⟩ : ∃ C, C = (("func").toList ++ (ws ++ (("Test").toList ++ (w ++ (ws2 ++
      ('(' :: (inner ++ (')' :: (ws3 ++ ['\x7b']))))))))) := ⟨_, rfl⟩
  rw [← hCdef]
  have hCgl : C.getLast? = some '\x7b' := by
    rw [hCdef, show (("func").toList ++ (ws ++ (("Test").toList ++ (w ++ (ws2 ++
      ('(' :: (inner ++ (')' :: (ws3 ++ ['\x7b']))))))))) =
      (("func").toList ++ ws ++ ("Test").toList ++ w ++ ws2 ++ '(' :: inner ++
        ')' :: ws3) ++ ['\x7b'] from by simp [List.append_assoc],
      List.getLast?_append]
    rfl
  rw [Py.rstrip_append_nonspace hCgl (by decide), List.append_assoc]
  have hm : matchTestHeaderAt (C ++ (Py.rstrip (r.take m) ++ ['\n'])) =
      some (("Test").toList ++ w, Py.rstrip (r.take m) ++ ['\n']) := by
    have hshape : C ++ (Py.rstrip (r.take m) ++ ['\n']) =
        ("func").toList ++ (ws ++ (("Test").toList ++ (w ++ (ws2 ++
        ('(' :: (inner ++ (')' :: (ws3 ++ ('\x7b' ::
          (Py.rstrip (r.take m) ++ ['\n'])))))))))) := by
      rw [hCdef]
      simp [List.append_assoc]
    rw [hshape]
    exact matchTestHeaderAt_sound hws1 hws2 hw1 hw2 hws2b hin1 hin2 hws3
  unfold declNames scanTests
  rw [scanTestsGo_succ, hm]
  show List.map Prod.fst ((("Test").toList ++ w, 0) ::
    scanTestsGo (C ++ (Py.rstrip (r.take m) ++ ['\n'])).length
      (Py.rstrip (r.take m) ++ ['\n'])
      (0 + ((C ++ (Py.rstrip (r.take m) ++ ['\n'])).length -
        (Py.rstrip (r.take m) ++ ['\n']).length))) = [("Test").toList ++ w]
  rw [scanTestsGo_empty (rescan_tail_none hno) _ _]
  rfl

end Split

namespace Split

/-- Start offset of the first scan entry, or a default. -/
def headPos (res : List (List Char × Nat)) (d : Nat) : Nat :=
  match res with
  | [] => d
  | e :: _ => e.2

/-- Structure of the scanner output: entry offsets are bounded below, no
match occurs before the first entry, and every slice built from the output
rescans to exactly its own name. -/
theorem scan_slices_spec :
    ∀ n (l : List Char) (pos : Nat) (content : List Char) (fuel : Nat),
      l.length ≤ n → l.length < fuel → content.drop pos = l →
      content.length = pos + l.length →
      (∀ e ∈ scanTestsGo fuel l pos, pos ≤ e.2) ∧
      (∀ j, j < headPos (scanTestsGo fuel l pos) (pos + l.length) - pos →
        matchTestHeaderAt (l.drop j) = none) ∧
      (∀ q ∈ sliceTests content (scanTestsGo fuel l pos), declNames q.2 = [q.1]) := by
  intro n
  induction n with
  | zero =>
    intro l pos content fuel hn hf hdrop hlen
    have hl : l = [] := List.length_eq_zero.mp (Nat.le_zero.mp hn)
    subst hl
    cases fuel with
    | zero => omega
    | succ f =>
      refine ⟨?_, ?_, ?_⟩
      · intro e he
        rw [scanTestsGo_succ, show matchTestHeaderAt [] = none from rfl] at he
        simp at he
      · intro j hj
        rw [scanTestsGo_succ, show matchTestHeaderAt [] = none from rfl] at hj
        simp [headPos] at hj
      · intro q hq
        rw [scanTestsGo_succ, show matchTestHeaderAt [] = none from rfl] at hq
        simp [sliceTests] at hq
  | succ k ih =>
    intro l pos content fuel hn hf hdrop hlen
    cases fuel with
    | zero => omega
    | succ f =>
      cases hm : matchTestHeaderAt l with
      | none =>
        cases l with
        | nil =>
          refine ⟨?_, ?_, ?_⟩
          · intro e he
            rw [scanTestsGo_succ, hm] at he
            simp at he
          · intro j hj
            rw [scanTestsGo_succ, hm] at hj
            simp [headPos] at hj
          · intro q hq
            rw [scanTestsGo_succ, hm] at hq
            simp [sliceTests] at hq
        | cons c rest =>
          have hres : scanTestsGo (f + 1) (c :: rest) pos = scanTestsGo f rest (pos + 1) := by
            rw [scanTestsGo_succ, hm]
          have hdrop2 : content.drop (pos + 1) = rest := by
            have h4 : List.drop 1 (content.drop pos) = rest := by rw [hdrop]; rfl
            rw [List.drop_drop] at h4
            exact h4
          have hlen2 : content.length = (pos + 1) + rest.length := by
            simp at hlen
            omega
          obtain ⟨ih1, ih2, ih3⟩ := ih rest (pos + 1) content f
            (by simp at hn; omega) (by simp at hf; omega) hdrop2 hlen2
          refine ⟨?_, ?_, ?_⟩
          · intro e he
            rw [hres] at he
            exact Nat.le_trans (Nat.le_succ pos) (ih1 e he)
          · intro j hj
            rw [hres] at hj
            have hge : pos + 1 ≤ headPos (scanTestsGo f rest (pos + 1)) ((pos + 1) + rest.length) := by
              cases hsc : scanTestsGo f rest (pos + 1) with
              | nil => simp [headPos]
              | cons e2 t2 =>
                have := ih1 e2 (by rw [hsc]; exact List.mem_cons_self e2 t2)
                simpa [headPos] using this
            have hD : pos + (c :: rest).length = (pos + 1) + rest.length := by
              simp
              omega
            rw [hD] at hj
            cases j with
            | zero => exact hm
            | succ j2 =>
              rw [List.drop_succ_cons]
              exact ih2 j2 (by omega)
          · intro q hq
            rw [hres] at hq
            exact ih3 q hq
      | some nr =>
        obtain ⟨nm, rr⟩ := nr
        obtain ⟨ws, w, ws2, inner, ws3, he, hnm, hws1, hws2, hw1, hw2, hws2b, hin1, hin2, hws3⟩ :=
          matchTestHeaderAt_some hm
        obtain ⟨C, hCdef⟩ : ∃ C, C = (("func").toList ++ (ws ++ (("Test").toList ++ (w ++
          (ws2 ++ ('(' :: (inner ++ (')' :: (ws3 ++ ['\x7b']))))))))) := ⟨_, rfl⟩
        have hC : l = C ++ rr := by
          rw [he, hCdef]
          simp [List.append_assoc]
        have hrlt : rr.length < l.length := matchTestHeaderAt_length_lt hm
        have hClen : l.length = C.length + rr.length := by
          rw [hC]
          simp
        have hdelta : l.length - rr.length = C.length := by omega
        have hres : scanTestsGo (f + 1) l pos =
            (nm, pos) :: scanTestsGo f rr (pos + (l.length - rr.length)) := by
          rw [scanTestsGo_succ, hm]
        rw [hdelta] at hres
        have hdrop2 : content.drop (pos + C.length) = rr := by
          have h4 : List.drop C.length (content.drop pos) = rr := by
            rw [hdrop, hC, List.drop_left]
          rw [List.drop_drop] at h4
          exact h4
        have hlen2 : content.length = (pos + C.length) + rr.length := by omega
        obtain ⟨ih1, ih2, ih3⟩ := ih rr (pos + C.length) content f
          (by omega) (by omega) hdrop2 hlen2
        refine ⟨?_, ?_, ?_⟩
        · intro e he2
          rw [hres] at he2
          rcases List.mem_cons.mp he2 with h5 | h5
          · rw [h5]
          · exact Nat.le_trans (Nat.le_add_right pos C.length) (ih1 e h5)
        · intro j hj
          rw [hres] at hj
          simp [headPos] at hj
        · intro q hq
          rw [hres] at hq
          rw [show sliceTests content ((nm, pos) :: scanTestsGo f rr (pos + C.length)) =
            (nm, Py.rstrip ((content.drop pos).take
              (headPos (scanTestsGo f rr (pos + C.length)) content.length - pos)) ++ ['\n']) ::
            sliceTests content (scanTestsGo f rr (pos + C.length)) from ?_] at hq
          · rcases List.mem_cons.mp hq with h5 | h5
            · rw [h5]
              have hege : pos + C.length ≤
                  headPos (scanTestsGo f rr (pos + C.length)) content.length := by
                cases hsc : scanTestsGo f rr (pos + C.length) with
                | nil =>
                  simp [headPos]
                  omega
                | cons e2 t2 =>
                  have := ih1 e2 (by rw [hsc]; exact List.mem_cons_self e2 t2)
                  simpa [headPos] using this
              have htake : (content.drop pos).take
                  (headPos (scanTestsGo f rr (pos + C.length)) content.length - pos) =
                  C ++ rr.take
                    (headPos (scanTestsGo f rr (pos + C.length)) content.length -
                      (pos + C.length)) := by
                rw [hdrop, hC,
                  show headPos (scanTestsGo f rr (pos + C.length)) content.length - pos =
                    C.length + (headPos (scanTestsGo f rr (pos + C.length)) content.length -
                      (pos + C.length)) from by omega,
                  List.take_append]
              have hno : ∀ j2, j2 < headPos (scanTestsGo f rr (pos + C.length))
                  content.length - (pos + C.length) → matchTestHeaderAt (rr.drop j2) = none := by
                intro j2 hj2
                refine ih2 j2 ?_
                rw [show (pos + C.length) + rr.length = content.length from by omega]
                exact hj2
              have hker := slice_rescan (r := rr)
                (m := headPos (scanTestsGo f rr (pos + C.length)) content.length -
                  (pos + C.length))
                hws1 hws2 hw1 hw2 hws2b hin1 hin2 hws3 hno
              rw [← hCdef] at hker
              show declNames (Py.rstrip ((content.drop pos).take
                (headPos (scanTestsGo f rr (pos + C.length)) content.length - pos)) ++ ['\n']) =
                [nm]
              rw [htake, hker, hnm]
            · exact ih3 q h5
          · cases hsc : scanTestsGo f rr (pos + C.length) with
            | nil =>
              show sliceTests content [(nm, pos)] = _
              simp [sliceTests, headPos]
            | cons e2 t2 =>
              show sliceTests content ((nm, pos) :: e2 :: t2) = _
              simp [sliceTests, headPos]

end Split

namespace Split

/-- Every slice produced by the partitioner's scan rescans to exactly
its own test name. -/
theorem slices_rescan_all (content : List Char) :
    ∀ q ∈ sliceTests content (scanTests content), declNames q.2 = [q.1] :=
  (scan_slices_spec content.length content 0 content (content.length + 1)
    le_rfl (by omega) (by simp) (by simp)).2.2

/-- Slicing keeps the scan's name list. -/
theorem sliceTests_map_fst (content : List Char) (ps : List (List Char × Nat)) :
    (sliceTests content ps).map Prod.fst = ps.map Prod.fst := by
  induction ps with
  | nil => rfl
  | cons p rest ih =>
    obtain ⟨n, s⟩ := p
    simp [sliceTests, ih]

/-- Flattening a list of (name, buffer) pairs whose buffers each rescan to
the singleton of their name yields exactly the name list. -/
theorem flatMap_singleton_names (qs : List (List Char × List Char))
    (h : ∀ q ∈ qs, declNames q.2 = [q.1]) :
    qs.flatMap (fun q => declNames q.2) = qs.map Prod.fst := by
  induction qs with
  | nil => rfl
  | cons q rest ih =>
    rw [List.flatMap_cons, List.map_cons, h q (List.mem_cons_self q rest),
      ih (fun q2 hq2 => h q2 (List.mem_cons_of_mem q hq2))]
    rfl

/-- One dict-append adds exactly one value to the flattened dict. -/
theorem dictAppend_flat_perm (k : List Char) (v : List Char)
    (d : List (List Char × List (List Char))) :
    ((dictAppend d k v).flatMap Prod.snd).Perm ((d.flatMap Prod.snd) ++ [v]) := by
  induction d with
  | nil => simp [dictAppend]
  | cons p rest ih =>
    obtain ⟨k2, vs⟩ := p
    by_cases hk : k2 = k
    · rw [show dictAppend ((k2, vs) :: rest) k v = (k2, vs ++ [v]) :: rest from by
        simp [dictAppend, hk]]
      rw [List.flatMap_cons, List.flatMap_cons, List.append_assoc, List.append_assoc]
      exact List.Perm.append_left vs List.perm_append_comm
    · rw [show dictAppend ((k2, vs) :: rest) k v = (k2, vs) :: dictAppend rest k v from by
        simp [dictAppend, hk]]
      rw [List.flatMap_cons, List.flatMap_cons, List.append_assoc]
      exact List.Perm.append_left _ ih

/-- Folding dict-appends over a pair list: the flattened result is the
initial dict's values followed by the pairs' values, up to permutation. -/
theorem foldl_dictAppend_flat_perm (cat : List Char → List Char) :
    ∀ (pairs : List (List Char × List Char)) (d : List (List Char × List (List Char))),
      ((pairs.foldl (fun d2 nv => dictAppend d2 (cat nv.1) nv.2) d).flatMap Prod.snd).Perm
        ((d.flatMap Prod.snd) ++ pairs.map Prod.snd) := by
  intro pairs
  induction pairs with
  | nil =>
    intro d
    simp
  | cons p rest ih =>
    intro d
    rw [List.foldl_cons]
    refine (ih (dictAppend d (cat p.1) p.2)).trans ?_
    refine ((dictAppend_flat_perm (cat p.1) p.2 d).append_right (rest.map Prod.snd)).trans ?_
    rw [List.append_assoc]
    exact List.Perm.refl _

/-- The categorizing dict build conserves the multiset of values. -/
theorem buildCats_flat_perm (cat : List Char → List Char)
    (pairs : List (List Char × List Char)) :
    ((buildCats cat pairs).flatMap Prod.snd).Perm (pairs.map Prod.snd) := by
  have h := foldl_dictAppend_flat_perm cat pairs []
  simpa [buildCats] using h

end Split

/-- C1: conservation of declaration names.  For every input buffer, the
multiset of test declaration names recovered (by rescanning with the same
signature pattern) from the union of all category buffers produced by the
partitioner split_tests equals the multiset of declaration names the
pattern finds in the input buffer: each matched declaration lands in
exactly one category, none is duplicated and none is dropped. -/
theorem partitioner_conserves_names (content : List Char) :
    List.Perm
      (((SplitCrud.split_tests content).tests.flatMap Prod.snd).flatMap Split.declNames)
      (Split.declNames content) := by
  have h1 : (SplitCrud.split_tests content).tests =
      Split.buildCats SplitCrud.categorize_test
        (Split.sliceTests content (Split.scanTests content)) := rfl
  rw [h1]
  have h2 := Split.buildCats_flat_perm SplitCrud.categorize_test
    (Split.sliceTests content (Split.scanTests content))
  have h3 := h2.flatMap_right Split.declNames
  refine h3.trans ?_
  have h4 : ((Split.sliceTests content (Split.scanTests content)).map Prod.snd).flatMap
      Split.declNames =
      (Split.sliceTests content (Split.scanTests content)).flatMap
        (fun q => Split.declNames q.2) := by
    rw [List.flatMap_map]
  rw [h4, Split.flatMap_singleton_names _ (Split.slices_rescan_all content),
    Split.sliceTests_map_fst]
  exact List.Perm.refl _
